import Mathlib

/-!
Verification of the cachemere caching library (shallow embedding).

The embedding follows the current revision of the sources:
  * cache.h / cache.hpp        (the policy-parameterised orchestrator)
  * item.h                     (the cached item record)
  * policy/insertion_always    (admission policy that accepts everything)
  * policy/insertion_tinylfu   (TinyLFU admission policy)
  * policy/eviction_lru        (LRU eviction policy, KeyHash revision)
  * policy/constraint_count    (item-count constraint policy)
  * policy/constraint_memory   (byte-budget constraint policy)
  * policy/detail/bloom_filter, counting_bloom_filter, hash_mixer,
    bloom_filter_math          (probabilistic sketches)

Modelling conventions:
  * size_t arithmetic is Nat arithmetic reduced modulo 2^64 (addW / subW);
    uint32_t counters are reduced modulo 2^32.
  * C++ assert statements abort the process in a debug build, and the spec
    classifies assertion failures as unrecoverable programming errors, so a
    failed assertion is modelled as Option.none: the operation does not run
    to completion.  Functions whose asserts cannot fire are kept total.
  * Policies hold reference_wrapper aliases of keys owned by the store; the
    model stores key values directly (equality-preserving).
  * The boost::hana compile-time dispatch ("call the handler iff the policy
    declares it") is modelled by a Bool flag per (policy, event) pair plus
    the handler function; dispatch consults the flag exactly where the
    source consults the trait.
  * Every dispatched event is also recorded in a ghost event log so that
    claims about which policy receives which event are directly statable.
-/

namespace Cachemere

/-- Word size of size_t (64-bit build). -/
def SIZE_W : Nat := 2 ^ 64

/-- Word size of uint32_t. -/
def U32_W : Nat := 2 ^ 32

/-- Addition of two size_t values (wraps modulo 2^64). -/
def addW (a b : Nat) : Nat := (a + b) % SIZE_W

/-- Subtraction of two size_t values (wraps modulo 2^64); both arguments are
assumed already reduced below 2^64, as every stored size_t field is. -/
def subW (a b : Nat) : Nat := (a + SIZE_W - b) % SIZE_W

/-- Cached item record, mirroring struct Item of item.h.  The constructor
stores the measured key size, the owned value, the measured value size and
the derived total size; all size fields are size_t. -/
structure Item (V : Type) where
  key_size : Nat
  value : V
  value_size : Nat
  total_size : Nat
deriving DecidableEq, Repr

/-- Item construction as performed by the Item constructor:
m_total_size is initialised to m_key_size + m_value_size (size_t). -/
def mkItem {V : Type} (ks : Nat) (v : V) (vs : Nat) : Item V :=
  { key_size := ks % SIZE_W
    value := v
    value_size := vs % SIZE_W
    total_size := addW (ks % SIZE_W) (vs % SIZE_W) }

section Store

variable {K V : Type} [DecidableEq K]

/-- Lookup in the primary store (m_data.find), an association list keyed by K. -/
def storeFind (store : List (K × Item V)) (k : K) : Option (Item V) :=
  match store with
  | [] => none
  | (k', it) :: rest => if k = k' then some it else storeFind rest k

/-- Keys currently resident in the store. -/
def storeKeys (store : List (K × Item V)) : List K := store.map Prod.fst

/-- Erasure of the entry for a key (m_data.erase of a valid iterator);
removes the first matching entry. -/
def storeErase (store : List (K × Item V)) (k : K) : List (K × Item V) :=
  match store with
  | [] => []
  | (k', it) :: rest => if k = k' then rest else (k', it) :: storeErase rest k

/-- Insertion of a fresh key (m_data.insert_or_assign on an absent key). -/
def storePut (store : List (K × Item V)) (k : K) (it : Item V) : List (K × Item V) :=
  store ++ [(k, it)]

/-- In-place replacement of the item held for a resident key (the swap in
insert_or_update's update branch). -/
def storeReplace (store : List (K × Item V)) (k : K) (it : Item V) : List (K × Item V) :=
  match store with
  | [] => []
  | (k', old) :: rest => if k = k' then (k, it) :: rest else (k', old) :: storeReplace rest k it

end Store

/-- Identifies which event was dispatched (ghost event log). -/
inductive EventKind where
  | insertEv | updateEv | evictEv | hitEv | missEv
deriving DecidableEq, Repr

/-- Identifies which policy received the event (ghost event log). -/
inductive PolicyTag where
  | insertionTag | evictionTag | constraintTag
deriving DecidableEq, Repr

/-- Insertion (admission) policy interface: decision queries plus the
optional event handlers discovered by the trait machinery.  A handler
returns none when one of its asserts fires. -/
structure InsertionPolicyM (K V σ : Type) where
  initSt : σ
  should_add : σ → K → Bool
  should_replace : σ → K → K → Bool
  has_on_insert : Bool
  on_insert : σ → K → Item V → Option σ
  has_on_update : Bool
  on_update : σ → K → Item V → Item V → Option σ
  has_on_cachehit : Bool
  on_cache_hit : σ → K → Item V → Option σ
  has_on_cachemiss : Bool
  on_cache_miss : σ → K → Option σ
  has_on_evict : Bool
  on_evict : σ → K → Item V → Option σ
  clearP : σ → σ

/-- Eviction policy interface: event handlers plus the lazy victim sequence
(victim_begin .. victim_end materialised as a list). -/
structure EvictionPolicyM (K V σ : Type) where
  initSt : σ
  victims : σ → List K
  has_on_insert : Bool
  on_insert : σ → K → Item V → Option σ
  has_on_update : Bool
  on_update : σ → K → Item V → Item V → Option σ
  has_on_cachehit : Bool
  on_cache_hit : σ → K → Item V → Option σ
  has_on_cachemiss : Bool
  on_cache_miss : σ → K → Option σ
  has_on_evict : Bool
  on_evict : σ → K → Item V → Option σ
  clearP : σ → σ

/-- Constraint policy interface.  can_replace returns none when its debug
assert fires (ConstraintCount::can_replace asserts m_count > 0,
ConstraintMemory::can_replace asserts equal key sizes). -/
structure ConstraintPolicyM (K V σ : Type) where
  init : Nat → σ
  can_add : σ → K → Item V → Bool
  can_replace : σ → K → Item V → Item V → Option Bool
  is_satisfied : σ → Bool
  update : σ → Nat → σ
  has_on_insert : Bool
  on_insert : σ → K → Item V → Option σ
  has_on_update : Bool
  on_update : σ → K → Item V → Item V → Option σ
  has_on_cachemiss : Bool
  on_cache_miss : σ → K → Option σ
  has_on_evict : Bool
  on_evict : σ → K → Item V → Option σ
  clearP : σ → σ

/-- Full cache configuration: the three policies plus the two caller
supplied measurement functors. -/
structure CacheCfg (K V σI σE σC : Type) where
  IP : InsertionPolicyM K V σI
  EP : EvictionPolicyM K V σE
  CP : ConstraintPolicyM K V σC
  measureKey : K → Nat
  measureValue : V → Nat

/-- Complete cache state: the primary store, the three policy states, the
two rolling statistics accumulators (kept as raw sample lists) and the
ghost event log. -/
structure CacheState (K V σI σE σC : Type) where
  store : List (K × Item V)
  ins : σI
  ev : σE
  con : σC
  hitsAcc : List Nat
  bytesAcc : List Nat
  log : List (EventKind × PolicyTag)
deriving DecidableEq

section Dispatch

variable {K V σI σE σC : Type} [DecidableEq K]

/-- One hana-if dispatch block targeting the insertion policy: when the
flag (the compile-time trait) holds, run the handler on the insertion
policy state and record the delivery in the ghost log. -/
def stepIns (flag : Bool) (f : σI → Option σI) (ev : EventKind)
    (s : CacheState K V σI σE σC) : Option (CacheState K V σI σE σC) :=
  if flag then
    (f s.ins).map fun i => { s with ins := i, log := s.log ++ [(ev, .insertionTag)] }
  else some s

/-- One hana-if dispatch block targeting the eviction policy. -/
def stepEv (flag : Bool) (f : σE → Option σE) (ev : EventKind)
    (s : CacheState K V σI σE σC) : Option (CacheState K V σI σE σC) :=
  if flag then
    (f s.ev).map fun e => { s with ev := e, log := s.log ++ [(ev, .evictionTag)] }
  else some s

/-- One hana-if dispatch block targeting the constraint policy. -/
def stepCon (flag : Bool) (f : σC → Option σC) (ev : EventKind)
    (s : CacheState K V σI σE σC) : Option (CacheState K V σI σE σC) :=
  if flag then
    (f s.con).map fun c => { s with con := c, log := s.log ++ [(ev, .constraintTag)] }
  else some s

variable (cfg : CacheCfg K V σI σE σC)

/-- Event dispatch for on_insert, mirroring Cache::on_insert: insertion
policy first, then eviction, then constraint, each guarded by the trait. -/
def cacheOnInsert (s : CacheState K V σI σE σC) (k : K) (it : Item V) :
    Option (CacheState K V σI σE σC) :=
  match stepIns cfg.IP.has_on_insert (fun i => cfg.IP.on_insert i k it) .insertEv s with
  | none => none
  | some sa =>
    match stepEv cfg.EP.has_on_insert (fun e => cfg.EP.on_insert e k it) .insertEv sa with
    | none => none
    | some sb => stepCon cfg.CP.has_on_insert (fun c => cfg.CP.on_insert c k it) .insertEv sb

/-- Event dispatch for on_update, mirroring Cache::on_update. -/
def cacheOnUpdate (s : CacheState K V σI σE σC) (k : K) (oldIt newIt : Item V) :
    Option (CacheState K V σI σE σC) :=
  match stepIns cfg.IP.has_on_update (fun i => cfg.IP.on_update i k oldIt newIt) .updateEv s with
  | none => none
  | some sa =>
    match stepEv cfg.EP.has_on_update (fun e => cfg.EP.on_update e k oldIt newIt) .updateEv sa with
    | none => none
    | some sb =>
      stepCon cfg.CP.has_on_update (fun c => cfg.CP.on_update c k oldIt newIt) .updateEv sb

/-- Event dispatch for on_evict, mirroring Cache::on_evict. -/
def cacheOnEvict (s : CacheState K V σI σE σC) (k : K) (it : Item V) :
    Option (CacheState K V σI σE σC) :=
  match stepIns cfg.IP.has_on_evict (fun i => cfg.IP.on_evict i k it) .evictEv s with
  | none => none
  | some sa =>
    match stepEv cfg.EP.has_on_evict (fun e => cfg.EP.on_evict e k it) .evictEv sa with
    | none => none
    | some sb => stepCon cfg.CP.has_on_evict (fun c => cfg.CP.on_evict c k it) .evictEv sb

/-- Event dispatch for on_cache_hit, mirroring Cache::on_cache_hit of the
current revision faithfully: the hit sample is recorded, the insertion
policy is notified, then the eviction policy is notified twice in a row
(the third hana dispatch block tests and calls the eviction policy where
the symmetric code would target the constraint policy), and the constraint
policy is never notified. -/
def cacheOnCacheHit (s : CacheState K V σI σE σC) (k : K) (it : Item V) :
    Option (CacheState K V σI σE σC) :=
  match stepIns cfg.IP.has_on_cachehit (fun i => cfg.IP.on_cache_hit i k it) .hitEv
      { s with hitsAcc := s.hitsAcc ++ [1],
               bytesAcc := s.bytesAcc ++ [it.value_size % U32_W] } with
  | none => none
  | some sa =>
    match stepEv cfg.EP.has_on_cachehit (fun e => cfg.EP.on_cache_hit e k it) .hitEv sa with
    | none => none
    | some sb => stepEv cfg.EP.has_on_cachehit (fun e => cfg.EP.on_cache_hit e k it) .hitEv sb

/-- Event dispatch for on_cache_miss, mirroring Cache::on_cache_miss:
miss sample then insertion, eviction, constraint. -/
def cacheOnCacheMiss (s : CacheState K V σI σE σC) (k : K) :
    Option (CacheState K V σI σE σC) :=
  match stepIns cfg.IP.has_on_cachemiss (fun i => cfg.IP.on_cache_miss i k) .missEv
      { s with hitsAcc := s.hitsAcc ++ [0], bytesAcc := s.bytesAcc ++ [0] } with
  | none => none
  | some sa =>
    match stepEv cfg.EP.has_on_cachemiss (fun e => cfg.EP.on_cache_miss e k) .missEv sa with
    | none => none
    | some sb => stepCon cfg.CP.has_on_cachemiss (fun c => cfg.CP.on_cache_miss c k) .missEv sb

end Dispatch

/-- Result of the victim-collection loop of Cache::check_insert: either the
admission policy vetoed the insertion, or the loop finished with a final
constraint-copy state and the victims collected so far. -/
inductive InsCollect (K V σC : Type) where
  | abort
  | finish (copy : σC) (acc : List (K × Item V))

/-- Result of the victim-collection loop of Cache::check_replace; also
carries the evicted_original_key flag. -/
inductive RepCollect (K V σC : Type) where
  | abort
  | finish (copy : σC) (evictedOriginal : Bool) (acc : List (K × Item V))

section Operations

variable {K V σI σE σC : Type} [DecidableEq K]
variable (cfg : CacheCfg K V σI σE σC)

/-- Victim-collection loop of Cache::check_insert.  The constraint copy is
consulted before each victim; a victim the store cannot find trips the
sync assert (modelled as none); an admission veto aborts; otherwise the
eviction is simulated on the copy and the victim is recorded. -/
def collectInsertVictims (insSt : σI) (key : K) (item : Item V)
    (store : List (K × Item V)) :
    List K → σC → List (K × Item V) → Option (InsCollect K V σC)
  | [], copy, acc => some (.finish copy acc)
  | v :: rest, copy, acc =>
    if cfg.CP.can_add copy key item then some (.finish copy acc)
    else
      match storeFind store v with
      | some vit =>
        if cfg.IP.should_replace insSt v key then
          match cfg.CP.on_evict copy v vit with
          | some copy2 => collectInsertVictims insSt key item store rest copy2 (acc ++ [(v, vit)])
          | none => none
        else some .abort
      | none => none

/-- Commit of the collected evictions: each recorded (key, item) pair is
removed through Cache::remove(iterator), which dispatches on_evict and then
erases the entry.  The source erases through iterators pinned at collection
time; a victim collected twice would be erased twice, which invalidates the
iterator, so a no-longer-resident victim is modelled as failure. -/
def commitEvictions : CacheState K V σI σE σC → List (K × Item V) →
    Option (CacheState K V σI σE σC)
  | s, [] => some s
  | s, (v, vit) :: rest =>
    if v ∈ storeKeys s.store then
      match cacheOnEvict cfg s v vit with
      | some s2 => commitEvictions { s2 with store := storeErase s2.store v } rest
      | none => none
    else none

/-- Cache::check_insert.  Fast path: if the constraint can absorb the item,
the admission policy alone decides.  Slow path: simulate evictions on a
copy of the constraint and commit them only if the copy ends up accepting
the candidate. -/
def checkInsert (s : CacheState K V σI σE σC) (key : K) (item : Item V) :
    Option (Bool × CacheState K V σI σE σC) :=
  if cfg.CP.can_add s.con key item then some (cfg.IP.should_add s.ins key, s)
  else
    match collectInsertVictims cfg s.ins key item s.store (cfg.EP.victims s.ev) s.con [] with
    | none => none
    | some .abort => some (false, s)
    | some (.finish copy acc) =>
      if cfg.CP.can_add copy key item then
        (commitEvictions cfg s acc).map fun s2 => (true, s2)
      else some (false, s)

/-- Victim-collection loop of Cache::check_replace.  Identical to the
insert loop except that the guard switches from can_replace to can_add once
the original key has been scheduled for eviction. -/
def collectReplaceVictims (insSt : σI) (key : K) (oldIt newIt : Item V)
    (store : List (K × Item V)) :
    List K → σC → Bool → List (K × Item V) → Option (RepCollect K V σC)
  | [], copy, flag, acc => some (.finish copy flag acc)
  | v :: rest, copy, flag, acc =>
    match (if flag then some (cfg.CP.can_add copy key newIt)
           else cfg.CP.can_replace copy key oldIt newIt) with
    | none => none
    | some ok =>
      if ok then some (.finish copy flag acc)
      else
        match storeFind store v with
        | some vit =>
          if cfg.IP.should_replace insSt v key then
            match cfg.CP.on_evict copy v vit with
            | some copy2 =>
              collectReplaceVictims insSt key oldIt newIt store rest copy2
                (flag || decide (v = key)) (acc ++ [(v, vit)])
            | none => none
          else some .abort
        | none => none

/-- Cache::check_replace. -/
def checkReplace (s : CacheState K V σI σE σC) (key : K) (oldIt newIt : Item V) :
    Option (Bool × CacheState K V σI σE σC) :=
  match cfg.CP.can_replace s.con key oldIt newIt with
  | none => none
  | some ok =>
    if ok then some (true, s)
    else
      match collectReplaceVictims cfg s.ins key oldIt newIt s.store
          (cfg.EP.victims s.ev) s.con false [] with
      | none => none
      | some .abort => some (false, s)
      | some (.finish copy flag acc) =>
        match (if flag then some (cfg.CP.can_add copy key newIt)
               else cfg.CP.can_replace copy key oldIt newIt) with
        | none => none
        | some ok2 =>
          if ok2 then (commitEvictions cfg s acc).map fun s2 => (true, s2)
          else some (false, s)

/-- Cache::insert_or_update: update in place (dispatching on_update with
the displaced item) when the key is resident, insert (dispatching
on_insert) otherwise. -/
def insertOrUpdate (s : CacheState K V σI σE σC) (k : K) (item : Item V) :
    Option (CacheState K V σI σE σC) :=
  match storeFind s.store k with
  | some old =>
    cacheOnUpdate cfg { s with store := storeReplace s.store k item } k old item
  | none =>
    cacheOnInsert cfg { s with store := storePut s.store k item } k item

/-- Cache::insert.  Builds the prospective item from the measured sizes and
runs the coordination protocol; returns whether the item was stored. -/
def cacheInsert (s : CacheState K V σI σE σC) (k : K) (v : V) :
    Option (Bool × CacheState K V σI σE σC) :=
  let item := mkItem (cfg.measureKey k) v (cfg.measureValue v)
  match storeFind s.store k with
  | some old =>
    match checkReplace cfg s k old item with
    | none => none
    | some (true, s2) => (insertOrUpdate cfg s2 k item).map fun s3 => (true, s3)
    | some (false, s2) => some (false, s2)
  | none =>
    match checkInsert cfg s k item with
    | none => none
    | some (true, s2) =>
      (cacheOnInsert cfg { s2 with store := storePut s2.store k item } k item).map
        fun s3 => (true, s3)
    | some (false, s2) => some (false, s2)

/-- Cache::remove(iterator): dispatch on_evict then erase the entry. -/
def cacheRemoveEntry (s : CacheState K V σI σE σC) (k : K) (it : Item V) :
    Option (CacheState K V σI σE σC) :=
  (cacheOnEvict cfg s k it).map fun s2 => { s2 with store := storeErase s2.store k }

/-- Cache::remove(key). -/
def cacheRemove (s : CacheState K V σI σE σC) (k : K) :
    Option (Bool × CacheState K V σI σE σC) :=
  match storeFind s.store k with
  | some it => (cacheRemoveEntry cfg s k it).map fun s2 => (true, s2)
  | none => some (false, s)

/-- Cache::clear: erase the store, reset both accumulators and clear every
policy.  The ghost event log is not an accumulator and is kept. -/
def cacheClear (s : CacheState K V σI σE σC) : CacheState K V σI σE σC :=
  { store := []
    ins := cfg.IP.clearP s.ins
    ev := cfg.EP.clearP s.ev
    con := cfg.CP.clearP s.con
    hitsAcc := []
    bytesAcc := []
    log := s.log }

/-- Iteration core of Cache::retain over the entries of the store. -/
def retainLoop (pred : K → V → Bool) :
    CacheState K V σI σE σC → List (K × Item V) → Option (CacheState K V σI σE σC)
  | s, [] => some s
  | s, (k, it) :: rest =>
    if pred k it.value then retainLoop pred s rest
    else
      match cacheRemoveEntry cfg s k it with
      | some s2 => retainLoop pred s2 rest
      | none => none

/-- Cache::retain. -/
def cacheRetain (pred : K → V → Bool) (s : CacheState K V σI σE σC) :
    Option (CacheState K V σI σE σC) :=
  retainLoop cfg pred s s.store

/-- Eviction loop of Cache::update_constraint.  Each pass re-opens the
victim sequence, stops as soon as the constraint is satisfied or the
sequence is exhausted, and the final assert demands satisfaction.  A victim
the store cannot find trips the sync assert.  The fuel argument bounds the
iteration count; running out of fuel models non-termination. -/
def ucLoop : Nat → CacheState K V σI σE σC → Option (CacheState K V σI σE σC)
  | 0, _ => none
  | fuel + 1, s =>
    if cfg.CP.is_satisfied s.con then some s
    else
      match cfg.EP.victims s.ev with
      | [] => none
      | v :: _ =>
        match storeFind s.store v with
        | some vit =>
          match cacheRemoveEntry cfg s v vit with
          | some s2 => ucLoop fuel s2
          | none => none
        | none => none

/-- Cache::update_constraint: delegate the new budget to the constraint
policy, then evict until satisfied. -/
def cacheUpdateConstraint (s : CacheState K V σI σE σC) (arg : Nat) :
    Option (CacheState K V σI σE σC) :=
  ucLoop cfg (s.store.length + 1) { s with con := cfg.CP.update s.con arg }

/-- Iteration core of Cache::import: items are admitted through can_add
only; the loop returns silently at the first rejection. -/
def importLoop : CacheState K V σI σE σC → List (K × V) →
    Option (CacheState K V σI σE σC)
  | s, [] => some s
  | s, (k, v) :: rest =>
    let item := mkItem (cfg.measureKey k) v (cfg.measureValue v)
    if cfg.CP.can_add s.con k item then
      match insertOrUpdate cfg s k item with
      | some s2 => importLoop s2 rest
      | none => none
    else some s

/-- Freshly constructed cache (the simple constructor): default constructed
policies, the constraint built from its argument, empty store and
accumulators. -/
def mkCache (a : Nat) : CacheState K V σI σE σC :=
  { store := []
    ins := cfg.IP.initSt
    ev := cfg.EP.initSt
    con := cfg.CP.init a
    hitsAcc := []
    bytesAcc := []
    log := [] }

/-- Import constructor: the simple constructor followed by Cache::import. -/
def mkImportedCache (coll : List (K × V)) (a : Nat) :
    Option (CacheState K V σI σE σC) :=
  importLoop cfg (mkCache cfg a) coll

/-- Cache::find: on a resident key record a hit sample, dispatch
on_cache_hit and return a copy of the value; otherwise record a miss
sample, dispatch on_cache_miss and return none. -/
def cacheFind (s : CacheState K V σI σE σC) (k : K) :
    Option (Option V × CacheState K V σI σE σC) :=
  match storeFind s.store k with
  | some it => (cacheOnCacheHit cfg s k it).map fun s2 => (some it.value, s2)
  | none => (cacheOnCacheMiss cfg s k).map fun s2 => ((none : Option V), s2)

/-- Cache::contains: a pure lookup, no statistics, no events. -/
def cacheContains (s : CacheState K V σI σE σC) (k : K) : Bool :=
  (storeFind s.store k).isSome

end Operations

/-- Public mutating operations of the cache orchestrator. -/
inductive Op (K V : Type) where
  | insertOp (k : K) (v : V)
  | removeOp (k : K)
  | clearOp
  | retainOp (pred : K → V → Bool)
  | updateConstraintOp (arg : Nat)
  | findOp (k : K)
  | containsOp (k : K)

section Run

variable {K V σI σE σC : Type} [DecidableEq K]
variable (cfg : CacheCfg K V σI σE σC)

/-- State transition of one public operation; none when the operation does
not run to completion (a debug assert fired or the eviction loop diverged). -/
def runOp (s : CacheState K V σI σE σC) : Op K V → Option (CacheState K V σI σE σC)
  | .insertOp k v => (cacheInsert cfg s k v).map Prod.snd
  | .removeOp k => (cacheRemove cfg s k).map Prod.snd
  | .clearOp => some (cacheClear cfg s)
  | .retainOp p => cacheRetain cfg p s
  | .updateConstraintOp a => cacheUpdateConstraint cfg s a
  | .findOp k => (cacheFind cfg s k).map Prod.snd
  | .containsOp _ => some s

/-- Cache states reachable through completed public operations from either
constructor. -/
inductive ReachableCache : CacheState K V σI σE σC → Prop
  | new (a : Nat) : ReachableCache (mkCache cfg a)
  | imported (coll : List (K × V)) (a : Nat) (s : CacheState K V σI σE σC) :
      mkImportedCache cfg coll a = some s → ReachableCache s
  | step (s s2 : CacheState K V σI σE σC) (op : Op K V) :
      ReachableCache s → runOp cfg s op = some s2 → ReachableCache s2

end Run

section ConcretePolicies

variable {K V : Type} [DecidableEq K]

/-- Removal of the first occurrence of a key from a key list (std::list or
std::unordered_map erase of a single element). -/
def eraseFirst : List K → K → List K
  | [], _ => []
  | a :: rest, k => if a = k then rest else a :: eraseFirst rest k

/-- InsertionAlways: stateless, accepts every insertion and replacement,
declares no event handler. -/
def alwaysPolicy (K V : Type) : InsertionPolicyM K V Unit :=
  { initSt := ()
    should_add := fun _ _ => true
    should_replace := fun _ _ _ => true
    has_on_insert := false
    on_insert := fun s _ _ => some s
    has_on_update := false
    on_update := fun s _ _ _ => some s
    has_on_cachehit := false
    on_cache_hit := fun s _ _ => some s
    has_on_cachemiss := false
    on_cache_miss := fun s _ => some s
    has_on_evict := false
    on_evict := fun s _ _ => some s
    clearP := id }

/-- State of EvictionLRU: the recency list m_keys (front = most recently
used) and the key set of the m_nodes map.  The map value (a list iterator)
always designates the first occurrence of its key in the list, so it needs
no separate representation. -/
structure LRUState (K : Type) where
  keys : List K
  nodes : List K
deriving DecidableEq, Repr

/-- EvictionLRU::on_insert: asserts the key is not yet tracked, then pushes
it at the front of the list and maps it. -/
def lruOnInsert (st : LRUState K) (k : K) : Option (LRUState K) :=
  if k ∈ st.nodes then none
  else some { keys := k :: st.keys, nodes := k :: st.nodes }

/-- EvictionLRU::on_cache_hit: splice the mapped node to the front of the
list (a no-op when it is already at the front); asserts the key is mapped. -/
def lruOnCacheHit (st : LRUState K) (k : K) : Option (LRUState K) :=
  if k ∈ st.nodes then some { st with keys := k :: eraseFirst st.keys k }
  else none

/-- EvictionLRU::on_evict: when the evicted key sits at the back of the
list, erase its map entry and pop the back node; otherwise erase only the
map entry, leaving the list node in place.  Asserts non-empty structures
and, in the second branch, that the key is mapped. -/
def lruOnEvict (st : LRUState K) (k : K) : Option (LRUState K) :=
  if st.nodes = [] ∨ st.keys = [] then none
  else if st.keys.getLast? = some k then
    some { keys := st.keys.dropLast, nodes := eraseFirst st.nodes k }
  else if k ∈ st.nodes then some { st with nodes := eraseFirst st.nodes k }
  else none

/-- EvictionLRU packaged as an eviction policy: declares on_insert,
on_update, on_cache_hit and on_evict; victims walk the list back to front. -/
def lruPolicy (K V : Type) [DecidableEq K] : EvictionPolicyM K V (LRUState K) :=
  { initSt := { keys := [], nodes := [] }
    victims := fun st => st.keys.reverse
    has_on_insert := true
    on_insert := fun st k _ => lruOnInsert st k
    has_on_update := true
    on_update := fun st k _ _ => lruOnCacheHit st k
    has_on_cachehit := true
    on_cache_hit := fun st k _ => lruOnCacheHit st k
    has_on_cachemiss := false
    on_cache_miss := fun st _ => some st
    has_on_evict := true
    on_evict := fun st k _ => lruOnEvict st k
    clearP := fun _ => { keys := [], nodes := [] } }

/-- State of ConstraintCount: the current item count and the maximum. -/
structure CountState where
  count : Nat
  maximum : Nat
deriving DecidableEq, Repr

/-- ConstraintCount packaged as a constraint policy.  can_replace asserts a
positive count; on_evict asserts a positive count before decrementing; the
increment wraps like size_t. -/
def countPolicy (K V : Type) : ConstraintPolicyM K V CountState :=
  { init := fun a => { count := 0, maximum := a % SIZE_W }
    can_add := fun s _ _ => decide (s.count < s.maximum)
    can_replace := fun s _ _ _ => if s.count = 0 then none else some true
    is_satisfied := fun s => decide (s.count ≤ s.maximum)
    update := fun s a => { s with maximum := a % SIZE_W }
    has_on_insert := true
    on_insert := fun s _ _ => some { s with count := (s.count + 1) % SIZE_W }
    has_on_update := false
    on_update := fun s _ _ _ => some s
    has_on_cachemiss := false
    on_cache_miss := fun s _ => some s
    has_on_evict := true
    on_evict := fun s _ _ =>
      if s.count = 0 then none else some { s with count := s.count - 1 }
    clearP := fun s => { s with count := 0 } }

/-- State of ConstraintMemory: the tracked byte usage and the budget. -/
structure MemoryState where
  memory : Nat
  maximum : Nat
deriving DecidableEq, Repr

/-- ConstraintMemory packaged as a constraint policy.  can_replace asserts
equal key sizes; on_insert and on_update assert the budget afterwards;
on_evict asserts the evicted size does not exceed the tracked usage.  All
arithmetic wraps like size_t. -/
def memoryPolicy (K V : Type) : ConstraintPolicyM K V MemoryState :=
  { init := fun a => { memory := 0, maximum := a % SIZE_W }
    can_add := fun s _ it => decide (addW s.memory it.total_size ≤ s.maximum)
    can_replace := fun s _ old new =>
      if old.key_size = new.key_size then
        some (decide (addW (subW s.memory old.value_size) new.value_size ≤ s.maximum))
      else none
    is_satisfied := fun s => decide (s.memory ≤ s.maximum)
    update := fun s a => { s with maximum := a % SIZE_W }
    has_on_insert := true
    on_insert := fun s _ it =>
      let m := addW s.memory it.total_size
      if m ≤ s.maximum then some { s with memory := m } else none
    has_on_update := true
    on_update := fun s _ old new =>
      let m := addW (subW s.memory old.value_size) new.value_size
      if m ≤ s.maximum then some { s with memory := m } else none
    has_on_cachemiss := false
    on_cache_miss := fun s _ => some s
    has_on_evict := true
    on_evict := fun s _ it =>
      if it.total_size ≤ s.memory then
        some { s with memory := subW s.memory it.total_size }
      else none
    clearP := fun s => { s with memory := 0 } }

end ConcretePolicies

section Sketches

/-- Modulus of std::minstd_rand. -/
def MINSTD_M : Nat := 2147483647

/-- Multiplier of std::minstd_rand. -/
def MINSTD_A : Nat := 48271

/-- Seeding of a linear_congruential_engine with increment zero: the seed
is reduced modulo the modulus and a zero result is replaced by one. -/
def minstdSeed (seed : Nat) : Nat :=
  let s := seed % MINSTD_M
  if s = 0 then 1 else s

/-- One step of std::minstd_rand. -/
def minstdNext (state : Nat) : Nat := (MINSTD_A * state) % MINSTD_M

/-- Successive outputs of the engine (the engine advances before producing
each value). -/
def minstdStream : Nat → Nat → List Nat
  | _, 0 => []
  | st, n + 1 =>
    let st2 := minstdNext st
    st2 :: minstdStream st2 n

/-- HashMixer: n successive probe indices for a key hash, each engine
output reduced modulo the value range. -/
def mixerProbes (seed range n : Nat) : List Nat :=
  (minstdStream (minstdSeed seed) n).map (· % range)

/-- State of the plain bloom filter: the bit array and the probe count. -/
structure BloomState where
  bits : List Bool
  nbHashes : Nat
deriving DecidableEq, Repr

/-- Bloom filter with an explicitly given geometry (the constructor sizes
the array through the floating-point helpers of bloom_filter_math, modelled
separately). -/
def mkBloomRaw (m k : Nat) : BloomState :=
  { bits := List.replicate m false, nbHashes := k }

/-- BloomFilter::add: set the k probed bits. -/
def bloomAdd {K : Type} (hash : K → Nat) (st : BloomState) (key : K) : BloomState :=
  { st with
    bits := (mixerProbes (hash key) st.bits.length st.nbHashes).foldl
      (fun bs i => bs.set i true) st.bits }

/-- BloomFilter::maybe_contains: true iff every probed bit is set. -/
def bloomContains {K : Type} (hash : K → Nat) (st : BloomState) (key : K) : Bool :=
  (mixerProbes (hash key) st.bits.length st.nbHashes).all fun i => st.bits.getD i false

/-- BloomFilter::clear: reset all bits, keeping the allocation. -/
def bloomClear (st : BloomState) : BloomState :=
  { st with bits := List.replicate st.bits.length false }

/-- State of the counting bloom filter: configured cardinality, the uint32
counter array, the probe count and the tracked number of non-zero slots. -/
structure CBFState where
  cardinality : Nat
  cells : List Nat
  nbHashes : Nat
  nbNonzero : Nat
deriving DecidableEq, Repr

/-- Counting bloom filter with explicitly given geometry. -/
def mkCBFRaw (card m k : Nat) : CBFState :=
  { cardinality := card, cells := List.replicate m 0, nbHashes := k, nbNonzero := 0 }

/-- Minimum of the probed counters, starting from the uint32 maximum, in
probe order (shared by add and estimate). -/
def cbfMinOf (cells : List Nat) (idxs : List Nat) : Nat :=
  idxs.foldl (fun m i => min (cells.getD i 0) m) (U32_W - 1)

/-- CountingBloomFilter::add, the conservative increment: compute the k
probe indices and the minimum of the probed counters, then increment
exactly the probed slots that hold the minimum (re-testing the live value,
so a slot probed twice is incremented once); the non-zero tracker grows by
one per increment when the minimum was zero. -/
def cbfAdd {K : Type} (hash : K → Nat) (st : CBFState) (key : K) : CBFState :=
  let idxs := mixerProbes (hash key) st.cells.length st.nbHashes
  let minv := cbfMinOf st.cells idxs
  let isZeroInc := if minv = 0 then 1 else 0
  let r := idxs.foldl
    (fun (p : List Nat × Nat) i =>
      if p.1.getD i 0 = minv then
        (p.1.set i ((p.1.getD i 0 + 1) % U32_W), (p.2 + isZeroInc) % U32_W)
      else p)
    (st.cells, st.nbNonzero)
  { st with cells := r.1, nbNonzero := r.2 }

/-- CountingBloomFilter::estimate: the minimum of the probed counters. -/
def cbfEstimate {K : Type} (hash : K → Nat) (st : CBFState) (key : K) : Nat :=
  cbfMinOf st.cells (mixerProbes (hash key) st.cells.length st.nbHashes)

/-- CountingBloomFilter::decay: halve every counter with integer division,
decrementing the non-zero tracker for every counter that drops from one to
zero (uint32 arithmetic). -/
def cbfDecay (st : CBFState) : CBFState :=
  { st with
    cells := st.cells.map (· / 2)
    nbNonzero := st.cells.foldl
      (fun nz c => if c = 1 then (nz + (U32_W - 1)) % U32_W else nz) st.nbNonzero }

/-- CountingBloomFilter::clear. -/
def cbfClear (st : CBFState) : CBFState :=
  { st with cells := List.replicate st.cells.length 0, nbNonzero := 0 }

/-- State of InsertionTinyLFU: the gatekeeper bloom filter and the counting
bloom frequency sketch. -/
structure TLFUState where
  gatekeeper : BloomState
  sketch : CBFState
deriving DecidableEq, Repr

/-- Freshly constructed TinyLFU policy state with the given sketch
geometry. -/
def tlfuFresh (m k card : Nat) : TLFUState :=
  { gatekeeper := mkBloomRaw m k, sketch := mkCBFRaw card m k }

/-- InsertionTinyLFU::touch_item: a gatekeeper hit feeds the frequency
sketch (resetting both sketches when the estimate exceeds the configured
cardinality); otherwise the key only enters the gatekeeper. -/
def tlfuTouch {K : Type} (hash : K → Nat) (st : TLFUState) (key : K) : TLFUState :=
  if bloomContains hash st.gatekeeper key then
    let sk := cbfAdd hash st.sketch key
    if sk.cardinality < cbfEstimate hash sk key then
      { gatekeeper := bloomClear st.gatekeeper, sketch := cbfDecay sk }
    else { st with sketch := sk }
  else { st with gatekeeper := bloomAdd hash st.gatekeeper key }

/-- InsertionTinyLFU::estimate_count_for_key: the sketch estimate, plus one
when the gatekeeper reports the key (uint32 increment). -/
def tlfuEstimate {K : Type} (hash : K → Nat) (st : TLFUState) (key : K) : Nat :=
  let e := cbfEstimate hash st.sketch key
  if bloomContains hash st.gatekeeper key then (e + 1) % U32_W else e

/-- InsertionTinyLFU packaged as an insertion policy: should_add is the
gatekeeper membership test, should_replace compares frequency estimates,
and the policy declares on_cache_hit and on_cache_miss (both touching the
key). -/
def tlfuPolicy (K V : Type) (hash : K → Nat) (m k card : Nat) :
    InsertionPolicyM K V TLFUState :=
  { initSt := tlfuFresh m k card
    should_add := fun st key => bloomContains hash st.gatekeeper key
    should_replace := fun st victim candidate =>
      decide (tlfuEstimate hash st victim < tlfuEstimate hash st candidate)
    has_on_insert := false
    on_insert := fun st _ _ => some st
    has_on_update := false
    on_update := fun st _ _ _ => some st
    has_on_cachehit := true
    on_cache_hit := fun st key _ => some (tlfuTouch hash st key)
    has_on_cachemiss := true
    on_cache_miss := fun st key => some (tlfuTouch hash st key)
    has_on_evict := false
    on_evict := fun st _ _ => some st
    clearP := fun st =>
      { gatekeeper := bloomClear st.gatekeeper, sketch := cbfClear st.sketch } }

end Sketches

section ClaimDemoInstances

/-- Demonstration cache configuration: InsertionAlways, EvictionLRU and
ConstraintCount over Nat keys and values, with both measurement functors
returning one. -/
def demoCfg : CacheCfg Nat Nat Unit (LRUState Nat) CountState :=
  { IP := alwaysPolicy Nat Nat
    EP := lruPolicy Nat Nat
    CP := countPolicy Nat Nat
    measureKey := fun _ => 1
    measureValue := fun _ => 1 }

/-- State of the demonstration cache (budget two items) after a completed
insert of key 1 with value 5. -/
def demoStateIns1 : CacheState Nat Nat Unit (LRUState Nat) CountState :=
  { store := [(1, { key_size := 1, value := 5, value_size := 1, total_size := 2 })]
    ins := ()
    ev := { keys := [1], nodes := [1] }
    con := { count := 1, maximum := 2 }
    hitsAcc := []
    bytesAcc := []
    log := [(.insertEv, .evictionTag), (.insertEv, .constraintTag)] }

end ClaimDemoInstances

/-- Demonstration cache over the byte-budget constraint whose caller
supplied size functions both return zero. -/
def demoMemZeroCfg : CacheCfg Nat Nat Unit (LRUState Nat) MemoryState :=
  { IP := alwaysPolicy Nat Nat
    EP := lruPolicy Nat Nat
    CP := memoryPolicy Nat Nat
    measureKey := fun _ => 0
    measureValue := fun _ => 0 }

/-- Demonstration TinyLFU cache: a constant key hash (a legal caller
supplied hash; any two keys collide), sketch geometry of cardinality 1
(9 cells, 6 probes, the geometry the floating-point sizing yields), LRU
eviction and an item-count budget of 10. -/
def tlfuDemoCfg : CacheCfg Nat Nat TLFUState (LRUState Nat) CountState :=
  { IP := tlfuPolicy Nat Nat (fun _ => 5) 9 6 1
    EP := lruPolicy Nat Nat
    CP := countPolicy Nat Nat
    measureKey := fun _ => 1
    measureValue := fun _ => 1 }

/-- A configuration with the admission decision functions (should_add and
should_replace) of the insertion policy swapped out; every other field,
including the event handlers of the same policy, is kept. -/
def withDecisions {K V σI σE σC : Type} (cfg : CacheCfg K V σI σE σC)
    (sa : σI → K → Bool) (sr : σI → K → K → Bool) : CacheCfg K V σI σE σC :=
  { cfg with IP := { cfg.IP with should_add := sa, should_replace := sr } }

/-- n successive CountingBloomFilter::add calls with the same key. -/
def cbfAddN {K : Type} (hash : K → Nat) (key : K) (st : CBFState) : Nat → CBFState
  | 0 => st
  | n + 1 => cbfAdd hash (cbfAddN hash key st n) key

/-- One step of the conservative-increment fold of
CountingBloomFilter::add, with the probed minimum and the zero-increment
already computed. -/
def cbfStep (c z : Nat) (p : List Nat × Nat) (i : Nat) : List Nat × Nat :=
  if p.1.getD i 0 = c then
    (p.1.set i ((p.1.getD i 0 + 1) % U32_W), (p.2 + z) % U32_W)
  else p

/-- bloom_filter_math.hpp, multiplier: log(0.01) / pow(log(2), 2), with
0.01 written as 1/100.  The double arithmetic of the source is modelled
over the reals. -/
noncomputable def bfMultiplier : ℝ := Real.log (1 / 100) / Real.log 2 ^ 2

/-- bloom_filter_math.hpp, ideal_set_size: -cardinality * multiplier. -/
noncomputable def idealSetSize (n : ℕ) : ℝ := -(n : ℝ) * bfMultiplier

/-- optimal_filter_size: static_cast of the (positive) ideal size to an
integer truncates toward zero.  The assert(ideal_set_size > 1) of the
source is stated separately where relevant. -/
noncomputable def optimal_filter_size (n : ℕ) : ℕ := ⌊idealSetSize n⌋.toNat

/-- optimal_nb_of_hash_functions: truncation of (filter_size /
cardinality) * log(2); the assert(nb_hashes >= 1) of the source is stated
separately where relevant. -/
noncomputable def optimal_nb_of_hash_functions (n m : ℕ) : ℕ :=
  ⌊(m : ℝ) / (n : ℝ) * Real.log 2⌋.toNat

/-- The filter size as the SPECIFICATION words it: the ceiling of the
ideal size, clamped to a minimum of 1 (written for comparison with the
source's optimal_filter_size). -/
noncomputable def spec_filter_size (n : ℕ) : ℕ := max 1 ⌈idealSetSize n⌉.toNat

/-- BloomFilter::BloomFilter(cardinality): the bit array is sized by
optimal_filter_size and the probe count by optimal_nb_of_hash_functions
of that size. -/
noncomputable def mkBloom (n : ℕ) : BloomState :=
  mkBloomRaw (optimal_filter_size n) (optimal_nb_of_hash_functions n (optimal_filter_size n))

/-- CountingBloomFilter::CountingBloomFilter(cardinality), same sizing. -/
noncomputable def mkCBF (n : ℕ) : CBFState :=
  mkCBFRaw n (optimal_filter_size n) (optimal_nb_of_hash_functions n (optimal_filter_size n))

section FoldDefs

variable {K V σI σE σC : Type} [DecidableEq K]
variable (cfg : CacheCfg K V σI σE σC)

/-- Constraint-state fold over a victim list: the constraint on_evict
handler applied to each victim in order, failing when any application
fails.  Both the simulation on the constraint copy and the committed
evictions walk the same list in the same order, so both are this fold. -/
def conEvictFold : σC → List (K × Item V) → Option σC
  | c, [] => some c
  | c, (k, it) :: rest =>
    match cfg.CP.on_evict c k it with
    | some c2 => conEvictFold c2 rest
    | none => none

/-- Induction invariant behind the I1 claim: the constraint policy reports
satisfaction and the store has no duplicate keys. -/
def CacheInv (s : CacheState K V σI σE σC) : Prop :=
  cfg.CP.is_satisfied s.con = true ∧ (storeKeys s.store).Nodup

end FoldDefs

/-- Contract obligations of a constraint policy, all satisfied by the two
constraint policies shipped with the library: the policy starts and clears
satisfied, an admitted insertion or replacement leaves it satisfied, and a
completed eviction or miss notification preserves satisfaction. -/
structure ConstraintLaws {K V σC : Type} (CP : ConstraintPolicyM K V σC) : Prop where
  init_sat : ∀ a, CP.is_satisfied (CP.init a) = true
  clear_sat : ∀ s, CP.is_satisfied (CP.clearP s) = true
  insert_sat : ∀ s k it s2, CP.is_satisfied s = true → CP.can_add s k it = true →
    CP.on_insert s k it = some s2 → CP.is_satisfied s2 = true
  replace_sat : ∀ s k oldIt newIt s2, CP.is_satisfied s = true →
    CP.can_replace s k oldIt newIt = some true →
    CP.on_update s k oldIt newIt = some s2 → CP.is_satisfied s2 = true
  add_update_sat : ∀ s k oldIt newIt s2, CP.is_satisfied s = true →
    CP.can_add s k newIt = true →
    CP.on_update s k oldIt newIt = some s2 → CP.is_satisfied s2 = true
  evict_sat : ∀ s k it s2, CP.is_satisfied s = true →
    CP.on_evict s k it = some s2 → CP.is_satisfied s2 = true
  miss_sat : ∀ s k s2, CP.is_satisfied s = true →
    CP.on_cache_miss s k = some s2 → CP.is_satisfied s2 = true

section SizeArith

theorem subW_of_le {a b : Nat} (hb : b ≤ a) (ha : a < SIZE_W) : subW a b = a - b := by
  unfold subW
  have h1 : a + SIZE_W - b = (a - b) + SIZE_W := by omega
  rw [h1, Nat.add_mod_right]
  exact Nat.mod_eq_of_lt (by omega)

theorem addW_le (a b : Nat) : addW a b ≤ a + b := Nat.mod_le _ _

theorem subW_le_of_le {a b : Nat} (hb : b ≤ a) : subW a b ≤ a := by
  unfold subW
  have h1 : a + SIZE_W - b = (a - b) + SIZE_W := by omega
  rw [h1, Nat.add_mod_right]
  exact le_trans (Nat.mod_le _ _) (Nat.sub_le _ _)

end SizeArith

section StoreLemmas

variable {K V : Type} [DecidableEq K]

theorem storeFind_eq_none {store : List (K × Item V)} {k : K} :
    storeFind store k = none ↔ k ∉ storeKeys store := by
  induction store with
  | nil => simp [storeFind, storeKeys]
  | cons hd tl ih =>
    obtain ⟨k', it⟩ := hd
    by_cases h : k = k' <;> simp [storeFind, storeKeys, h, ih]

theorem storeFind_erase_ne {store : List (K × Item V)} {k j : K} (h : j ≠ k) :
    storeFind (storeErase store k) j = storeFind store j := by
  induction store with
  | nil => rfl
  | cons hd tl ih =>
    obtain ⟨k', it⟩ := hd
    by_cases hk : k = k'
    · subst hk
      simp [storeErase, storeFind, h]
    · by_cases hj : j = k' <;> simp [storeErase, storeFind, hk, hj, ih]

theorem storeKeys_put (store : List (K × Item V)) (k : K) (it : Item V) :
    storeKeys (storePut store k it) = storeKeys store ++ [k] := by
  simp [storePut, storeKeys]

theorem storeKeys_replace (store : List (K × Item V)) (k : K) (it : Item V) :
    storeKeys (storeReplace store k it) = storeKeys store := by
  induction store with
  | nil => rfl
  | cons hd tl ih =>
    obtain ⟨k', old⟩ := hd
    by_cases h : k = k'
    · subst h; simp [storeReplace, storeKeys]
    · simp only [storeReplace, if_neg h, storeKeys, List.map_cons]
      exact congrArg (k' :: ·) ih

theorem storeKeys_erase_sublist (store : List (K × Item V)) (k : K) :
    (storeKeys (storeErase store k)).Sublist (storeKeys store) := by
  induction store with
  | nil => simp [storeErase]
  | cons hd tl ih =>
    obtain ⟨k', it⟩ := hd
    by_cases h : k = k'
    · simpa [storeErase, storeKeys, h] using List.sublist_cons_self k' (storeKeys tl)
    · simpa [storeErase, storeKeys, h] using (ih.cons₂ k')

theorem storeKeys_erase_nodup {store : List (K × Item V)} {k : K}
    (h : (storeKeys store).Nodup) : (storeKeys (storeErase store k)).Nodup :=
  (storeKeys_erase_sublist store k).nodup h

theorem storeFind_mem_keys {store : List (K × Item V)} {k : K} {it : Item V}
    (h : storeFind store k = some it) : k ∈ storeKeys store := by
  induction store with
  | nil => simp [storeFind] at h
  | cons hd tl ih =>
    obtain ⟨k', it'⟩ := hd
    by_cases hk : k = k'
    · subst hk; exact List.mem_cons_self _ _
    · simp only [storeFind, if_neg hk] at h
      exact List.mem_cons_of_mem _ (ih h)

end StoreLemmas

/-- ConstraintCount satisfies the constraint policy contract. -/
theorem countPolicy_laws (K V : Type) : ConstraintLaws (countPolicy K V) := by
  constructor
  · intro a; simp [countPolicy]
  · intro s; simp [countPolicy]
  · intro s k it s2 _ hadd hins
    simp only [countPolicy, decide_eq_true_eq, Option.some_inj] at hadd hins
    subst hins
    simp only [countPolicy, decide_eq_true_eq]
    exact le_trans (Nat.mod_le _ _) hadd
  · intro s k o n s2 hsat _ hupd
    simp only [countPolicy, Option.some_inj] at hupd
    subst hupd
    exact hsat
  · intro s k o n s2 hsat _ hupd
    simp only [countPolicy, Option.some_inj] at hupd
    subst hupd
    exact hsat
  · intro s k it s2 hsat hev
    simp only [countPolicy] at hev hsat ⊢
    split at hev
    · exact absurd hev (by simp)
    · obtain rfl := Option.some_inj.mp hev
      simp only [decide_eq_true_eq] at hsat ⊢
      omega
  · intro s k s2 hsat hms
    simp only [countPolicy, Option.some_inj] at hms
    subst hms
    exact hsat

/-- ConstraintMemory satisfies the constraint policy contract. -/
theorem memoryPolicy_laws (K V : Type) : ConstraintLaws (memoryPolicy K V) := by
  constructor
  · intro a; simp [memoryPolicy]
  · intro s; simp [memoryPolicy]
  · intro s k it s2 _ _ hins
    simp only [memoryPolicy] at hins
    split at hins
    · obtain rfl := Option.some_inj.mp hins
      simp only [memoryPolicy, decide_eq_true_eq]
      assumption
    · exact absurd hins (by simp)
  · intro s k o n s2 _ _ hupd
    simp only [memoryPolicy] at hupd
    split at hupd
    · obtain rfl := Option.some_inj.mp hupd
      simp only [memoryPolicy, decide_eq_true_eq]
      assumption
    · exact absurd hupd (by simp)
  · intro s k o n s2 _ _ hupd
    simp only [memoryPolicy] at hupd
    split at hupd
    · obtain rfl := Option.some_inj.mp hupd
      simp only [memoryPolicy, decide_eq_true_eq]
      assumption
    · exact absurd hupd (by simp)
  · intro s k it s2 hsat hev
    simp only [memoryPolicy] at hev hsat ⊢
    split at hev
    · obtain rfl := Option.some_inj.mp hev
      simp only [decide_eq_true_eq] at hsat ⊢
      exact le_trans (subW_le_of_le (by assumption)) hsat
    · exact absurd hev (by simp)
  · intro s k s2 hsat hms
    simp only [memoryPolicy, Option.some_inj] at hms
    subst hms
    exact hsat

section DispatchSpecs

variable {K V σI σE σC : Type} [DecidableEq K]

/-- A dispatch block aimed at the insertion policy changes only the
insertion policy state and the log. -/
theorem stepIns_spec {flag : Bool} {f : σI → Option σI} {ev : EventKind}
    {s s2 : CacheState K V σI σE σC} (h : stepIns flag f ev s = some s2) :
    s2.store = s.store ∧ s2.ev = s.ev ∧ s2.con = s.con ∧
      s2.hitsAcc = s.hitsAcc ∧ s2.bytesAcc = s.bytesAcc := by
  unfold stepIns at h
  by_cases hf : flag
  · rw [if_pos hf] at h
    rcases ho : f s.ins with _ | i2 <;> rw [ho] at h
    · exact absurd h (by simp)
    rw [Option.map_some', Option.some_inj] at h
    subst h
    exact ⟨rfl, rfl, rfl, rfl, rfl⟩
  · rw [if_neg hf, Option.some_inj] at h
    subst h
    exact ⟨rfl, rfl, rfl, rfl, rfl⟩

/-- A dispatch block aimed at the eviction policy changes only the eviction
policy state and the log. -/
theorem stepEv_spec {flag : Bool} {f : σE → Option σE} {ev : EventKind}
    {s s2 : CacheState K V σI σE σC} (h : stepEv flag f ev s = some s2) :
    s2.store = s.store ∧ s2.ins = s.ins ∧ s2.con = s.con ∧
      s2.hitsAcc = s.hitsAcc ∧ s2.bytesAcc = s.bytesAcc := by
  unfold stepEv at h
  by_cases hf : flag
  · rw [if_pos hf] at h
    rcases ho : f s.ev with _ | e2 <;> rw [ho] at h
    · exact absurd h (by simp)
    rw [Option.map_some', Option.some_inj] at h
    subst h
    exact ⟨rfl, rfl, rfl, rfl, rfl⟩
  · rw [if_neg hf, Option.some_inj] at h
    subst h
    exact ⟨rfl, rfl, rfl, rfl, rfl⟩

/-- A dispatch block aimed at the constraint policy changes only the
constraint policy state and the log, and its result either comes from the
handler (flag set) or is unchanged. -/
theorem stepCon_spec {flag : Bool} {f : σC → Option σC} {ev : EventKind}
    {s s2 : CacheState K V σI σE σC} (h : stepCon flag f ev s = some s2) :
    s2.store = s.store ∧ s2.ins = s.ins ∧ s2.ev = s.ev ∧
      s2.hitsAcc = s.hitsAcc ∧ s2.bytesAcc = s.bytesAcc ∧
      ((flag = true ∧ f s.con = some s2.con) ∨ (flag = false ∧ s2.con = s.con)) := by
  unfold stepCon at h
  by_cases hf : flag
  · rw [if_pos hf] at h
    rcases ho : f s.con with _ | c2 <;> rw [ho] at h
    · exact absurd h (by simp)
    rw [Option.map_some', Option.some_inj] at h
    subst h
    exact ⟨rfl, rfl, rfl, rfl, rfl, Or.inl ⟨hf, rfl⟩⟩
  · rw [if_neg hf, Option.some_inj] at h
    subst h
    exact ⟨rfl, rfl, rfl, rfl, rfl, Or.inr ⟨Bool.of_not_eq_true hf, rfl⟩⟩

variable (cfg : CacheCfg K V σI σE σC)

/-- Effect of the on_evict dispatch on everything but the policy states:
store and statistics are untouched, and the constraint state either comes
from its on_evict handler or is unchanged. -/
theorem cacheOnEvict_spec {s s2 : CacheState K V σI σE σC} {k : K} {it : Item V}
    (h : cacheOnEvict cfg s k it = some s2) :
    s2.store = s.store ∧ s2.hitsAcc = s.hitsAcc ∧ s2.bytesAcc = s.bytesAcc ∧
      ((cfg.CP.has_on_evict = true ∧ cfg.CP.on_evict s.con k it = some s2.con) ∨
       (cfg.CP.has_on_evict = false ∧ s2.con = s.con)) := by
  unfold cacheOnEvict at h
  split at h
  · exact Option.noConfusion h
  · rename_i sa h1
    split at h
    · exact Option.noConfusion h
    · rename_i sb h2
      obtain ⟨ha1, _, ha3, ha4, ha5⟩ := stepIns_spec h1
      obtain ⟨hb1, _, hb3, hb4, hb5⟩ := stepEv_spec h2
      obtain ⟨hc1, _, _, hc4, hc5, hc6⟩ := stepCon_spec h
      refine ⟨by rw [hc1, hb1, ha1], by rw [hc4, hb4, ha4], by rw [hc5, hb5, ha5], ?_⟩
      rw [hb3, ha3] at hc6
      exact hc6

/-- Effect of the on_insert dispatch. -/
theorem cacheOnInsert_spec {s s2 : CacheState K V σI σE σC} {k : K} {it : Item V}
    (h : cacheOnInsert cfg s k it = some s2) :
    s2.store = s.store ∧ s2.hitsAcc = s.hitsAcc ∧ s2.bytesAcc = s.bytesAcc ∧
      ((cfg.CP.has_on_insert = true ∧ cfg.CP.on_insert s.con k it = some s2.con) ∨
       (cfg.CP.has_on_insert = false ∧ s2.con = s.con)) := by
  unfold cacheOnInsert at h
  split at h
  · exact Option.noConfusion h
  · rename_i sa h1
    split at h
    · exact Option.noConfusion h
    · rename_i sb h2
      obtain ⟨ha1, _, ha3, ha4, ha5⟩ := stepIns_spec h1
      obtain ⟨hb1, _, hb3, hb4, hb5⟩ := stepEv_spec h2
      obtain ⟨hc1, _, _, hc4, hc5, hc6⟩ := stepCon_spec h
      refine ⟨by rw [hc1, hb1, ha1], by rw [hc4, hb4, ha4], by rw [hc5, hb5, ha5], ?_⟩
      rw [hb3, ha3] at hc6
      exact hc6

/-- Effect of the on_update dispatch. -/
theorem cacheOnUpdate_spec {s s2 : CacheState K V σI σE σC} {k : K} {oldIt newIt : Item V}
    (h : cacheOnUpdate cfg s k oldIt newIt = some s2) :
    s2.store = s.store ∧ s2.hitsAcc = s.hitsAcc ∧ s2.bytesAcc = s.bytesAcc ∧
      ((cfg.CP.has_on_update = true ∧ cfg.CP.on_update s.con k oldIt newIt = some s2.con) ∨
       (cfg.CP.has_on_update = false ∧ s2.con = s.con)) := by
  unfold cacheOnUpdate at h
  split at h
  · exact Option.noConfusion h
  · rename_i sa h1
    split at h
    · exact Option.noConfusion h
    · rename_i sb h2
      obtain ⟨ha1, _, ha3, ha4, ha5⟩ := stepIns_spec h1
      obtain ⟨hb1, _, hb3, hb4, hb5⟩ := stepEv_spec h2
      obtain ⟨hc1, _, _, hc4, hc5, hc6⟩ := stepCon_spec h
      refine ⟨by rw [hc1, hb1, ha1], by rw [hc4, hb4, ha4], by rw [hc5, hb5, ha5], ?_⟩
      rw [hb3, ha3] at hc6
      exact hc6

/-- Effect of the on_cache_hit dispatch: the store is untouched and the
constraint state is never touched (the source never dispatches the hit to
the constraint policy). -/
theorem cacheOnCacheHit_spec {s s2 : CacheState K V σI σE σC} {k : K} {it : Item V}
    (h : cacheOnCacheHit cfg s k it = some s2) :
    s2.store = s.store ∧ s2.con = s.con := by
  unfold cacheOnCacheHit at h
  split at h
  · exact Option.noConfusion h
  · rename_i sa h1
    split at h
    · exact Option.noConfusion h
    · rename_i sb h2
      obtain ⟨ha1, _, ha3, _, _⟩ := stepIns_spec h1
      obtain ⟨hb1, _, hb3, _, _⟩ := stepEv_spec h2
      obtain ⟨hc1, _, hc3, _, _⟩ := stepEv_spec h
      exact ⟨by rw [hc1, hb1, ha1], by rw [hc3, hb3, ha3]⟩

/-- Effect of the on_cache_miss dispatch on the store and constraint. -/
theorem cacheOnCacheMiss_spec {s s2 : CacheState K V σI σE σC} {k : K}
    (h : cacheOnCacheMiss cfg s k = some s2) :
    s2.store = s.store ∧
      ((cfg.CP.has_on_cachemiss = true ∧ cfg.CP.on_cache_miss s.con k = some s2.con) ∨
       (cfg.CP.has_on_cachemiss = false ∧ s2.con = s.con)) := by
  unfold cacheOnCacheMiss at h
  split at h
  · exact Option.noConfusion h
  · rename_i sa h1
    split at h
    · exact Option.noConfusion h
    · rename_i sb h2
      obtain ⟨ha1, _, ha3, _, _⟩ := stepIns_spec h1
      obtain ⟨hb1, _, hb3, _, _⟩ := stepEv_spec h2
      obtain ⟨hc1, _, _, _, _, hc6⟩ := stepCon_spec h
      refine ⟨by rw [hc1, hb1, ha1], ?_⟩
      rw [hb3, ha3] at hc6
      exact hc6

end DispatchSpecs

section StoreHelpers

variable {K V : Type} [DecidableEq K]

theorem storeFind_erase_self {store : List (K × Item V)} {k : K}
    (h : (storeKeys store).Nodup) : storeFind (storeErase store k) k = none := by
  induction store with
  | nil => rfl
  | cons hd tl ih =>
    obtain ⟨k', it⟩ := hd
    simp only [storeKeys, List.map_cons, List.nodup_cons] at h
    by_cases hk : k = k'
    · subst hk
      rw [storeErase, if_pos rfl]
      exact storeFind_eq_none.mpr h.1
    · rw [storeErase, if_neg hk, storeFind, if_neg hk]
      exact ih h.2

theorem storeFind_none_erase {store : List (K × Item V)} {j k : K}
    (h : storeFind store j = none) : storeFind (storeErase store k) j = none := by
  induction store with
  | nil => rfl
  | cons hd tl ih =>
    obtain ⟨k', it⟩ := hd
    by_cases hj : j = k'
    · rw [storeFind, if_pos hj] at h
      exact Option.noConfusion h
    · rw [storeFind, if_neg hj] at h
      by_cases hk : k = k'
      · rw [storeErase, if_pos hk]
        exact h
      · rw [storeErase, if_neg hk, storeFind, if_neg hj]
        exact ih h

end StoreHelpers

section CheckSpecs

variable {K V σI σE σC : Type} [DecidableEq K]
variable (cfg : CacheCfg K V σI σE σC)

theorem conEvictFold_append (l1 l2 : List (K × Item V)) (c : σC) :
    conEvictFold cfg c (l1 ++ l2) =
      match conEvictFold cfg c l1 with
      | some c2 => conEvictFold cfg c2 l2
      | none => none := by
  induction l1 generalizing c with
  | nil => simp [conEvictFold]
  | cons hd tl ih =>
    obtain ⟨k, it⟩ := hd
    rw [List.cons_append, conEvictFold, conEvictFold]
    rcases cfg.CP.on_evict c k it with _ | c2
    · rfl
    · exact ih c2

theorem conEvictFold_sat (CL : ConstraintLaws cfg.CP) {l : List (K × Item V)} {c c2 : σC}
    (h : conEvictFold cfg c l = some c2) (hs : cfg.CP.is_satisfied c = true) :
    cfg.CP.is_satisfied c2 = true := by
  induction l generalizing c with
  | nil =>
    rw [conEvictFold, Option.some_inj] at h
    subst h
    exact hs
  | cons hd tl ih =>
    obtain ⟨k, it⟩ := hd
    rw [conEvictFold] at h
    rcases he : cfg.CP.on_evict c k it with _ | c3 <;> rw [he] at h
    · exact Option.noConfusion h
    · exact ih h (CL.evict_sat c k it c3 hs he)

/-- What a finished check_insert victim collection guarantees: the final
accumulator extends the initial one, and the final constraint copy is the
eviction fold of the new victims over the initial copy. -/
theorem collectInsertVictims_spec {insSt : σI} {key : K} {item : Item V}
    {store : List (K × Item V)} :
    ∀ (vs : List K) (copy : σC) (acc : List (K × Item V)) (copy2 : σC)
      (acc2 : List (K × Item V)),
      collectInsertVictims cfg insSt key item store vs copy acc =
        some (.finish copy2 acc2) →
      ∃ newacc, acc2 = acc ++ newacc ∧ conEvictFold cfg copy newacc = some copy2 := by
  intro vs
  induction vs with
  | nil =>
    intro copy acc copy2 acc2 h
    rw [collectInsertVictims, Option.some_inj] at h
    obtain ⟨rfl, rfl⟩ := InsCollect.finish.inj h
    exact ⟨[], by simp, rfl⟩
  | cons v rest ih =>
    intro copy acc copy2 acc2 h
    rw [collectInsertVictims] at h
    by_cases hca : cfg.CP.can_add copy key item = true
    · rw [if_pos hca, Option.some_inj] at h
      obtain ⟨rfl, rfl⟩ := InsCollect.finish.inj h
      exact ⟨[], by simp, rfl⟩
    · rw [if_neg hca] at h
      rcases hfind : storeFind store v with _ | vit <;> rw [hfind] at h
      · exact Option.noConfusion h
      · dsimp only at h
        by_cases hrep : cfg.IP.should_replace insSt v key = true
        · rw [if_pos hrep] at h
          rcases hev : cfg.CP.on_evict copy v vit with _ | copy3 <;> rw [hev] at h
          · exact Option.noConfusion h
          · obtain ⟨newacc, hacc, hfold⟩ := ih _ _ _ _ h
            refine ⟨(v, vit) :: newacc, by simpa using hacc, ?_⟩
            rw [conEvictFold, hev]
            exact hfold
        · rw [if_neg hrep, Option.some_inj] at h
          exact absurd h (fun hh => InsCollect.noConfusion hh)

/-- What a finished check_replace victim collection guarantees: in
addition to the fold characterisation, the evicted_original_key flag is set
exactly when the inserted key is among the newly collected victims. -/
theorem collectReplaceVictims_spec {insSt : σI} {key : K} {oldIt newIt : Item V}
    {store : List (K × Item V)} :
    ∀ (vs : List K) (copy : σC) (flag : Bool) (acc : List (K × Item V))
      (copy2 : σC) (flag2 : Bool) (acc2 : List (K × Item V)),
      collectReplaceVictims cfg insSt key oldIt newIt store vs copy flag acc =
        some (.finish copy2 flag2 acc2) →
      ∃ newacc, acc2 = acc ++ newacc ∧ conEvictFold cfg copy newacc = some copy2 ∧
        (flag2 = true ↔ (flag = true ∨ key ∈ newacc.map Prod.fst)) := by
  intro vs
  induction vs with
  | nil =>
    intro copy flag acc copy2 flag2 acc2 h
    rw [collectReplaceVictims, Option.some_inj] at h
    obtain ⟨rfl, rfl, rfl⟩ := RepCollect.finish.inj h
    exact ⟨[], by simp, rfl, by simp⟩
  | cons v rest ih =>
    intro copy flag acc copy2 flag2 acc2 h
    rw [collectReplaceVictims] at h
    rcases hok : (if flag = true then some (cfg.CP.can_add copy key newIt)
        else cfg.CP.can_replace copy key oldIt newIt) with _ | ok <;> rw [hok] at h
    · exact Option.noConfusion h
    · dsimp only at h
      by_cases hokt : ok = true
      · rw [if_pos hokt, Option.some_inj] at h
        obtain ⟨rfl, rfl, rfl⟩ := RepCollect.finish.inj h
        exact ⟨[], by simp, rfl, by simp⟩
      · rw [if_neg hokt] at h
        rcases hfind : storeFind store v with _ | vit <;> rw [hfind] at h
        · exact Option.noConfusion h
        · dsimp only at h
          by_cases hrep : cfg.IP.should_replace insSt v key = true
          · rw [if_pos hrep] at h
            rcases hev : cfg.CP.on_evict copy v vit with _ | copy3 <;> rw [hev] at h
            · exact Option.noConfusion h
            · obtain ⟨newacc, hacc, hfold, hflag⟩ := ih _ _ _ _ _ _ h
              refine ⟨(v, vit) :: newacc, by simpa using hacc, ?_, ?_⟩
              · rw [conEvictFold, hev]
                exact hfold
              · rw [hflag]
                by_cases hv : v = key
                · subst hv; simp
                · have hv2 : ¬key = v := fun hh => hv hh.symm
                  simp [hv, hv2, or_assoc]
          · rw [if_neg hrep, Option.some_inj] at h
            exact absurd h (fun hh => RepCollect.noConfusion hh)

/-- What a completed commit of collected evictions guarantees: the
constraint state evolves by the same eviction fold the simulation used, the
statistics are untouched, lookups of keys outside the victim set are
preserved, absent keys stay absent, the key set shrinks, and (for a
well-formed store) every committed victim is gone afterwards. -/
theorem commitEvictions_spec (hEv : cfg.CP.has_on_evict = true) :
    ∀ (acc : List (K × Item V)) (s s2 : CacheState K V σI σE σC),
      commitEvictions cfg s acc = some s2 →
      conEvictFold cfg s.con acc = some s2.con ∧
      (∀ j, j ∉ acc.map Prod.fst → storeFind s2.store j = storeFind s.store j) ∧
      (storeKeys s2.store).Sublist (storeKeys s.store) ∧
      (∀ j, storeFind s.store j = none → storeFind s2.store j = none) ∧
      ((storeKeys s.store).Nodup →
        ∀ j ∈ acc.map Prod.fst, storeFind s2.store j = none) ∧
      s2.hitsAcc = s.hitsAcc ∧ s2.bytesAcc = s.bytesAcc := by
  intro acc
  induction acc with
  | nil =>
    intro s s2 h
    rw [commitEvictions, Option.some_inj] at h
    subst h
    exact ⟨rfl, fun _ _ => rfl, List.Sublist.refl _, fun _ hh => hh, fun _ j hj => absurd hj (by simp), rfl, rfl⟩
  | cons hd rest ih =>
    intro s s2 h
    obtain ⟨v, vit⟩ := hd
    rw [commitEvictions] at h
    split at h
    · rename_i hvmem
      rcases hev : cacheOnEvict cfg s v vit with _ | sb <;> rw [hev] at h
      · exact Option.noConfusion h
      · obtain ⟨hb1, hb2, hb3, hb4⟩ := cacheOnEvict_spec cfg hev
        rcases hb4 with ⟨_, hbcon⟩ | ⟨hflag, _⟩
        · obtain ⟨ih1, ih2, ih3, ih4, ih5, ih6, ih7⟩ := ih _ _ h
          refine ⟨?_, ?_, ?_, ?_, ?_, ?_, ?_⟩
          · rw [conEvictFold, hbcon]
            simpa using ih1
          · intro j hj
            simp only [List.map_cons, List.mem_cons, not_or] at hj
            rw [ih2 j (by simpa using hj.2)]
            show storeFind (storeErase sb.store v) j = _
            rw [hb1, storeFind_erase_ne hj.1]
          · refine ih3.trans ?_
            show (storeKeys (storeErase sb.store v)).Sublist _
            rw [hb1]
            exact storeKeys_erase_sublist _ _
          · intro j hj
            refine ih4 j ?_
            show storeFind (storeErase sb.store v) j = none
            rw [hb1]
            exact storeFind_none_erase hj
          · intro hnd j hj
            simp only [List.map_cons, List.mem_cons] at hj
            have hnone : storeFind (storeErase sb.store v) v = none := by
              rw [hb1]
              exact storeFind_erase_self hnd
            rcases hj with rfl | hj
            · exact ih4 j hnone
            · refine ih5 ?_ j hj
              show (storeKeys (storeErase sb.store v)).Nodup
              rw [hb1]
              exact storeKeys_erase_nodup hnd
          · rw [ih6]
            show sb.hitsAcc = _
            rw [hb2]
          · rw [ih7]
            show sb.bytesAcc = _
            rw [hb3]
        · rw [hflag] at hEv
          exact Bool.noConfusion hEv
    · exact Option.noConfusion h

end CheckSpecs

section InvariantProof

variable {K V σI σE σC : Type} [DecidableEq K]
variable (cfg : CacheCfg K V σI σE σC)

/-- A failed check_insert leaves the cache untouched. -/
theorem checkInsert_false {s s2 : CacheState K V σI σE σC} {key : K} {item : Item V}
    (h : checkInsert cfg s key item = some (false, s2)) : s2 = s := by
  unfold checkInsert at h
  by_cases hca : cfg.CP.can_add s.con key item = true
  · rw [if_pos hca, Option.some_inj] at h
    exact congrArg Prod.snd h.symm
  · rw [if_neg hca] at h
    rcases hcol : collectInsertVictims cfg s.ins key item s.store (cfg.EP.victims s.ev)
        s.con [] with _ | res <;> rw [hcol] at h
    · exact Option.noConfusion h
    · rcases res with _ | ⟨copy, acc⟩ <;> dsimp only at h
      · rw [Option.some_inj] at h
        exact congrArg Prod.snd h.symm
      · by_cases hca2 : cfg.CP.can_add copy key item = true
        · rw [if_pos hca2] at h
          rcases hcom : commitEvictions cfg s acc with _ | s3 <;> rw [hcom] at h
          · exact Option.noConfusion h
          · rw [Option.map_some', Option.some_inj] at h
            exact absurd (congrArg Prod.fst h) (by simp)
        · rw [if_neg hca2, Option.some_inj] at h
          exact congrArg Prod.snd h.symm

/-- A successful check_insert: the constraint state evolved by an eviction
fold, the final constraint accepts the candidate, absent keys stayed
absent, the key set shrank, and the statistics are untouched. -/
theorem checkInsert_true (hEv : cfg.CP.has_on_evict = true)
    {s s2 : CacheState K V σI σE σC} {key : K} {item : Item V}
    (h : checkInsert cfg s key item = some (true, s2)) :
    ∃ acc : List (K × Item V),
      conEvictFold cfg s.con acc = some s2.con ∧
      cfg.CP.can_add s2.con key item = true ∧
      (∀ j, storeFind s.store j = none → storeFind s2.store j = none) ∧
      (storeKeys s2.store).Sublist (storeKeys s.store) ∧
      s2.hitsAcc = s.hitsAcc ∧ s2.bytesAcc = s.bytesAcc := by
  unfold checkInsert at h
  by_cases hca : cfg.CP.can_add s.con key item = true
  · rw [if_pos hca, Option.some_inj] at h
    obtain rfl : s = s2 := congrArg Prod.snd h
    exact ⟨[], rfl, hca, fun _ hh => hh, List.Sublist.refl _, rfl, rfl⟩
  · rw [if_neg hca] at h
    rcases hcol : collectInsertVictims cfg s.ins key item s.store (cfg.EP.victims s.ev)
        s.con [] with _ | res <;> rw [hcol] at h
    · exact Option.noConfusion h
    · rcases res with _ | ⟨copy, acc⟩ <;> dsimp only at h
      · rw [Option.some_inj] at h
        exact absurd (congrArg Prod.fst h) (by simp)
      · by_cases hca2 : cfg.CP.can_add copy key item = true
        · rw [if_pos hca2] at h
          rcases hcom : commitEvictions cfg s acc with _ | s3 <;> rw [hcom] at h
          · exact Option.noConfusion h
          · rw [Option.map_some', Option.some_inj] at h
            obtain rfl : s3 = s2 := congrArg Prod.snd h
            obtain ⟨newacc, hacc, hfold⟩ :=
              collectInsertVictims_spec cfg _ _ _ _ _ hcol
            rw [List.nil_append] at hacc
            subst hacc
            obtain ⟨hc1, _, _, hc4, _, hc6, hc7⟩ := commitEvictions_spec cfg hEv _ _ _ hcom
            rw [hfold, Option.some_inj] at hc1
            subst hc1
            exact ⟨acc, hfold, hca2, hc4,
              (commitEvictions_spec cfg hEv _ _ _ hcom).2.2.1, hc6, hc7⟩
        · rw [if_neg hca2, Option.some_inj] at h
          exact absurd (congrArg Prod.fst h) (by simp)

/-- A failed check_replace leaves the cache untouched. -/
theorem checkReplace_false {s s2 : CacheState K V σI σE σC} {key : K}
    {oldIt newIt : Item V}
    (h : checkReplace cfg s key oldIt newIt = some (false, s2)) : s2 = s := by
  unfold checkReplace at h
  rcases hcr : cfg.CP.can_replace s.con key oldIt newIt with _ | ok <;> rw [hcr] at h
  · exact Option.noConfusion h
  · dsimp only at h
    by_cases hok : ok = true
    · rw [if_pos hok, Option.some_inj] at h
      exact absurd (congrArg Prod.fst h) (by simp)
    · rw [if_neg hok] at h
      rcases hcol : collectReplaceVictims cfg s.ins key oldIt newIt s.store
          (cfg.EP.victims s.ev) s.con false [] with _ | res <;> rw [hcol] at h
      · exact Option.noConfusion h
      · rcases res with _ | ⟨copy, flag, acc⟩ <;> dsimp only at h
        · rw [Option.some_inj] at h
          exact congrArg Prod.snd h.symm
        · rcases hok2 : (if flag = true then some (cfg.CP.can_add copy key newIt)
              else cfg.CP.can_replace copy key oldIt newIt) with _ | ok2 <;> rw [hok2] at h
          · exact Option.noConfusion h
          · dsimp only at h
            by_cases hok2t : ok2 = true
            · rw [if_pos hok2t] at h
              rcases hcom : commitEvictions cfg s acc with _ | s3 <;> rw [hcom] at h
              · exact Option.noConfusion h
              · rw [Option.map_some', Option.some_inj] at h
                exact absurd (congrArg Prod.fst h) (by simp)
            · rw [if_neg hok2t, Option.some_inj] at h
              exact congrArg Prod.snd h.symm

/-- A successful check_replace: the constraint state evolved by an eviction
fold, absent keys stayed absent, the key set shrank, the statistics are
untouched, and at the end either the key still holds its old item and the
constraint accepts the in-place replacement, or the original key has been
evicted and the constraint accepts a fresh insertion. -/
theorem checkReplace_true (hEv : cfg.CP.has_on_evict = true)
    {s s2 : CacheState K V σI σE σC} {key : K} {oldIt newIt : Item V}
    (hWF : (storeKeys s.store).Nodup)
    (h : checkReplace cfg s key oldIt newIt = some (true, s2)) :
    ∃ acc : List (K × Item V),
      conEvictFold cfg s.con acc = some s2.con ∧
      (∀ j, storeFind s.store j = none → storeFind s2.store j = none) ∧
      (storeKeys s2.store).Sublist (storeKeys s.store) ∧
      s2.hitsAcc = s.hitsAcc ∧ s2.bytesAcc = s.bytesAcc ∧
      ((storeFind s2.store key = storeFind s.store key ∧
        cfg.CP.can_replace s2.con key oldIt newIt = some true) ∨
       (storeFind s2.store key = none ∧ cfg.CP.can_add s2.con key newIt = true)) := by
  unfold checkReplace at h
  rcases hcr : cfg.CP.can_replace s.con key oldIt newIt with _ | ok <;> rw [hcr] at h
  · exact Option.noConfusion h
  · dsimp only at h
    by_cases hok : ok = true
    · rw [if_pos hok, Option.some_inj] at h
      obtain rfl : s = s2 := congrArg Prod.snd h
      subst hok
      exact ⟨[], rfl, fun _ hh => hh, List.Sublist.refl _, rfl, rfl, Or.inl ⟨rfl, hcr⟩⟩
    · rw [if_neg hok] at h
      rcases hcol : collectReplaceVictims cfg s.ins key oldIt newIt s.store
          (cfg.EP.victims s.ev) s.con false [] with _ | res <;> rw [hcol] at h
      · exact Option.noConfusion h
      · rcases res with _ | ⟨copy, flag, acc⟩ <;> dsimp only at h
        · rw [Option.some_inj] at h
          exact absurd (congrArg Prod.fst h) (by simp)
        · rcases hok2 : (if flag = true then some (cfg.CP.can_add copy key newIt)
              else cfg.CP.can_replace copy key oldIt newIt) with _ | ok2 <;> rw [hok2] at h
          · exact Option.noConfusion h
          · dsimp only at h
            by_cases hok2t : ok2 = true
            · rw [if_pos hok2t] at h
              rcases hcom : commitEvictions cfg s acc with _ | s3 <;> rw [hcom] at h
              · exact Option.noConfusion h
              · rw [Option.map_some', Option.some_inj] at h
                obtain rfl : s3 = s2 := congrArg Prod.snd h
                obtain ⟨newacc, hacc, hfold, hflag⟩ :=
                  collectReplaceVictims_spec cfg _ _ _ _ _ _ _ hcol
                rw [List.nil_append] at hacc
                subst hacc
                obtain ⟨hc1, hc2, hc3, hc4, hc5, hc6, hc7⟩ :=
                  commitEvictions_spec cfg hEv _ _ _ hcom
                rw [hfold, Option.some_inj] at hc1
                subst hc1
                subst hok2t
                refine ⟨acc, hfold, hc4, hc3, hc6, hc7, ?_⟩
                by_cases hfl : flag = true
                · rw [if_pos hfl, Option.some_inj] at hok2
                  have hkey : key ∈ acc.map Prod.fst := by
                    rcases hflag.mp hfl with habs | hmem
                    · exact Bool.noConfusion habs
                    · exact hmem
                  exact Or.inr ⟨hc5 hWF key hkey, hok2⟩
                · rw [if_neg hfl] at hok2
                  have hkey : key ∉ acc.map Prod.fst := by
                    intro hmem
                    exact hfl (hflag.mpr (Or.inr hmem))
                  exact Or.inl ⟨hc2 key hkey, hok2⟩
            · rw [if_neg hok2t, Option.some_inj] at h
              exact absurd (congrArg Prod.fst h) (by simp)

/-- Specification of Cache::remove on a designated entry: the entry is
erased, the constraint is notified through its on_evict handler, the
statistics are untouched. -/
theorem cacheRemoveEntry_spec {s s2 : CacheState K V σI σE σC} {k : K} {it : Item V}
    (h : cacheRemoveEntry cfg s k it = some s2) :
    s2.store = storeErase s.store k ∧
      ((cfg.CP.has_on_evict = true ∧ cfg.CP.on_evict s.con k it = some s2.con) ∨
       (cfg.CP.has_on_evict = false ∧ s2.con = s.con)) ∧
      s2.hitsAcc = s.hitsAcc ∧ s2.bytesAcc = s.bytesAcc := by
  unfold cacheRemoveEntry at h
  rcases hev : cacheOnEvict cfg s k it with _ | sb <;> rw [hev] at h
  · exact Option.noConfusion h
  · rw [Option.map_some', Option.some_inj] at h
    subst h
    obtain ⟨hb1, hb2, hb3, hb4⟩ := cacheOnEvict_spec cfg hev
    exact ⟨congrArg (fun st => storeErase st k) hb1, hb4, hb2, hb3⟩

/-- Constraint satisfaction and store well-formedness are preserved by a
completed removal of a resident entry. -/
theorem cacheRemoveEntry_inv (CL : ConstraintLaws cfg.CP)
    {s s2 : CacheState K V σI σE σC} {k : K} {it : Item V}
    (h : cacheRemoveEntry cfg s k it = some s2) (hI : CacheInv cfg s) :
    CacheInv cfg s2 := by
  obtain ⟨hSat, hWF⟩ := hI
  obtain ⟨h1, h2, _, _⟩ := cacheRemoveEntry_spec cfg h
  constructor
  · rcases h2 with ⟨_, hhook⟩ | ⟨_, hcon⟩
    · exact CL.evict_sat _ _ _ _ hSat hhook
    · rw [hcon]; exact hSat
  · rw [h1]
    exact storeKeys_erase_nodup hWF

/-- Constraint satisfaction and store well-formedness are preserved by
insert_or_update when the constraint accepted the item through can_add
(the gate used by Cache::import). -/
theorem insertOrUpdate_inv (CL : ConstraintLaws cfg.CP)
    {s s2 : CacheState K V σI σE σC} {k : K} {item : Item V}
    (h : insertOrUpdate cfg s k item = some s2) (hI : CacheInv cfg s)
    (hgate : cfg.CP.can_add s.con k item = true) : CacheInv cfg s2 := by
  obtain ⟨hSat, hWF⟩ := hI
  unfold insertOrUpdate at h
  rcases hfind : storeFind s.store k with _ | old <;> rw [hfind] at h <;> dsimp only at h
  · obtain ⟨h1, _, _, h4⟩ := cacheOnInsert_spec cfg h
    constructor
    · rcases h4 with ⟨_, hhook⟩ | ⟨_, hcon⟩
      · exact CL.insert_sat _ _ _ _ hSat hgate hhook
      · rw [hcon]; exact hSat
    · rw [h1]
      show (storeKeys (storePut s.store k item)).Nodup
      rw [storeKeys_put]
      refine List.Nodup.append hWF (List.nodup_singleton k) ?_
      intro a ha hb
      rw [List.mem_singleton] at hb
      subst hb
      exact (storeFind_eq_none.mp hfind) ha
  · obtain ⟨h1, _, _, h4⟩ := cacheOnUpdate_spec cfg h
    constructor
    · rcases h4 with ⟨_, hhook⟩ | ⟨_, hcon⟩
      · exact CL.add_update_sat _ _ _ _ _ hSat hgate hhook
      · rw [hcon]; exact hSat
    · rw [h1]
      show (storeKeys (storeReplace s.store k item)).Nodup
      rw [storeKeys_replace]
      exact hWF

/-- Constraint satisfaction and store well-formedness are preserved by a
completed insert. -/
theorem cacheInsert_inv (hEv : cfg.CP.has_on_evict = true)
    (CL : ConstraintLaws cfg.CP) {s s2 : CacheState K V σI σE σC} {k : K} {v : V}
    {b : Bool} (h : cacheInsert cfg s k v = some (b, s2)) (hI : CacheInv cfg s) :
    CacheInv cfg s2 := by
  obtain ⟨hSat, hWF⟩ := hI
  unfold cacheInsert at h
  set item : Item V := mkItem (cfg.measureKey k) v (cfg.measureValue v) with hitemdef
  rcases hfind : storeFind s.store k with _ | old <;> rw [hfind] at h <;> dsimp only at h
  · -- key absent: check_insert path
    rcases hchk : checkInsert cfg s k item with _ | ⟨b2, s3⟩ <;> rw [hchk] at h
    · exact Option.noConfusion h
    · cases b2 <;> dsimp only at h
      · rw [Option.some_inj] at h
        obtain rfl : s3 = s2 := congrArg Prod.snd h
        rw [checkInsert_false cfg hchk]
        exact ⟨hSat, hWF⟩
      · rcases hdisp : cacheOnInsert cfg { s3 with store := storePut s3.store k item } k item
            with _ | s4 <;> rw [hdisp] at h
        · exact Option.noConfusion h
        · rw [Option.map_some', Option.some_inj] at h
          obtain rfl : s4 = s2 := congrArg Prod.snd h
          obtain ⟨acc, hfold, hcan, hnone, hsub, _, _⟩ := checkInsert_true cfg hEv hchk
          have hSat3 : cfg.CP.is_satisfied s3.con = true := conEvictFold_sat cfg CL hfold hSat
          have hWF3 : (storeKeys s3.store).Nodup := hsub.nodup hWF
          have hk3 : storeFind s3.store k = none := hnone k hfind
          obtain ⟨h1, _, _, h4⟩ := cacheOnInsert_spec cfg hdisp
          constructor
          · rcases h4 with ⟨_, hhook⟩ | ⟨_, hcon⟩
            · exact CL.insert_sat _ _ _ _ hSat3 hcan hhook
            · rw [hcon]; exact hSat3
          · rw [h1]
            show (storeKeys (storePut s3.store k _)).Nodup
            rw [storeKeys_put]
            refine List.Nodup.append hWF3 (List.nodup_singleton k) ?_
            intro a ha hb
            rw [List.mem_singleton] at hb
            subst hb
            exact (storeFind_eq_none.mp hk3) ha
  · -- key resident: check_replace path
    rcases hchk : checkReplace cfg s k old item with _ | ⟨b2, s3⟩ <;> rw [hchk] at h
    · exact Option.noConfusion h
    · cases b2 <;> dsimp only at h
      · rw [Option.some_inj] at h
        obtain rfl : s3 = s2 := congrArg Prod.snd h
        rw [checkReplace_false cfg hchk]
        exact ⟨hSat, hWF⟩
      · rcases hiou : insertOrUpdate cfg s3 k item with _ | s4 <;> rw [hiou] at h
        · exact Option.noConfusion h
        · rw [Option.map_some', Option.some_inj] at h
          obtain rfl : s4 = s2 := congrArg Prod.snd h
          obtain ⟨acc, hfold, hnone, hsub, _, _, hend⟩ :=
            checkReplace_true cfg hEv hWF hchk
          have hSat3 : cfg.CP.is_satisfied s3.con = true := conEvictFold_sat cfg CL hfold hSat
          have hWF3 : (storeKeys s3.store).Nodup := hsub.nodup hWF
          unfold insertOrUpdate at hiou
          rcases hend with ⟨hfind3, hcr⟩ | ⟨hfind3, hca⟩
          · rw [hfind3, hfind] at hiou
            dsimp only at hiou
            obtain ⟨h1, _, _, h4⟩ := cacheOnUpdate_spec cfg hiou
            constructor
            · rcases h4 with ⟨_, hhook⟩ | ⟨_, hcon⟩
              · exact CL.replace_sat _ _ _ _ _ hSat3 hcr hhook
              · rw [hcon]; exact hSat3
            · rw [h1]
              show (storeKeys (storeReplace s3.store k _)).Nodup
              rw [storeKeys_replace]
              exact hWF3
          · rw [hfind3] at hiou
            dsimp only at hiou
            obtain ⟨h1, _, _, h4⟩ := cacheOnInsert_spec cfg hiou
            constructor
            · rcases h4 with ⟨_, hhook⟩ | ⟨_, hcon⟩
              · exact CL.insert_sat _ _ _ _ hSat3 hca hhook
              · rw [hcon]; exact hSat3
            · rw [h1]
              show (storeKeys (storePut s3.store k _)).Nodup
              rw [storeKeys_put]
              refine List.Nodup.append hWF3 (List.nodup_singleton k) ?_
              intro a ha hb
              rw [List.mem_singleton] at hb
              subst hb
              exact (storeFind_eq_none.mp hfind3) ha

/-- Constraint satisfaction and store well-formedness are preserved by a
completed retain. -/
theorem retainLoop_inv (CL : ConstraintLaws cfg.CP) {pred : K → V → Bool} :
    ∀ (entries : List (K × Item V)) (s s2 : CacheState K V σI σE σC),
      retainLoop cfg pred s entries = some s2 → CacheInv cfg s → CacheInv cfg s2 := by
  intro entries
  induction entries with
  | nil =>
    intro s s2 h hI
    rw [retainLoop, Option.some_inj] at h
    subst h
    exact hI
  | cons hd rest ih =>
    intro s s2 h hI
    obtain ⟨k, it⟩ := hd
    rw [retainLoop] at h
    by_cases hp : pred k it.value = true
    · rw [if_pos hp] at h
      exact ih _ _ h hI
    · rw [if_neg hp] at h
      rcases hrm : cacheRemoveEntry cfg s k it with _ | sb <;> rw [hrm] at h
      · exact Option.noConfusion h
      · exact ih _ _ h (cacheRemoveEntry_inv cfg CL hrm hI)

/-- A completed update_constraint eviction loop ends satisfied (its final
assert) with a well-formed store; no constraint law is needed because the
loop exits only at satisfaction. -/
theorem ucLoop_inv :
    ∀ (fuel : Nat) (s s2 : CacheState K V σI σE σC),
      ucLoop cfg fuel s = some s2 → (storeKeys s.store).Nodup → CacheInv cfg s2 := by
  intro fuel
  induction fuel with
  | zero => intro s s2 h _; exact Option.noConfusion h
  | succ n ih =>
    intro s s2 h hWF
    rw [ucLoop] at h
    by_cases hsat : cfg.CP.is_satisfied s.con = true
    · rw [if_pos hsat, Option.some_inj] at h
      subst h
      exact ⟨hsat, hWF⟩
    · rw [if_neg hsat] at h
      rcases hvs : cfg.EP.victims s.ev with _ | ⟨v, rest⟩ <;> rw [hvs] at h
      · exact Option.noConfusion h
      · dsimp only at h
        rcases hfind : storeFind s.store v with _ | vit <;> rw [hfind] at h
        · exact Option.noConfusion h
        · dsimp only at h
          rcases hrm : cacheRemoveEntry cfg s v vit with _ | sb <;> rw [hrm] at h
          · exact Option.noConfusion h
          · refine ih _ _ h ?_
            obtain ⟨h1, _, _, _⟩ := cacheRemoveEntry_spec cfg hrm
            rw [h1]
            exact storeKeys_erase_nodup hWF

/-- Constraint satisfaction and store well-formedness hold after a
completed update_constraint. -/
theorem cacheUpdateConstraint_inv {s s2 : CacheState K V σI σE σC} {arg : Nat}
    (h : cacheUpdateConstraint cfg s arg = some s2)
    (hWF : (storeKeys s.store).Nodup) : CacheInv cfg s2 := by
  unfold cacheUpdateConstraint at h
  exact ucLoop_inv cfg _ _ _ h hWF

/-- Constraint satisfaction and store well-formedness hold after clear. -/
theorem cacheClear_inv (CL : ConstraintLaws cfg.CP) (s : CacheState K V σI σE σC) :
    CacheInv cfg (cacheClear cfg s) :=
  ⟨CL.clear_sat s.con, List.nodup_nil⟩

/-- Constraint satisfaction and store well-formedness are preserved by a
completed find. -/
theorem cacheFind_inv (CL : ConstraintLaws cfg.CP)
    {s s2 : CacheState K V σI σE σC} {k : K} {r : Option V}
    (h : cacheFind cfg s k = some (r, s2)) (hI : CacheInv cfg s) : CacheInv cfg s2 := by
  obtain ⟨hSat, hWF⟩ := hI
  unfold cacheFind at h
  rcases hfind : storeFind s.store k with _ | it <;> rw [hfind] at h <;> dsimp only at h
  · rcases hm : cacheOnCacheMiss cfg s k with _ | sb <;> rw [hm] at h
    · exact Option.noConfusion h
    · rw [Option.map_some', Option.some_inj] at h
      obtain rfl : sb = s2 := congrArg Prod.snd h
      obtain ⟨h1, h2⟩ := cacheOnCacheMiss_spec cfg hm
      refine ⟨?_, by rw [h1]; exact hWF⟩
      rcases h2 with ⟨_, hhook⟩ | ⟨_, hcon⟩
      · exact CL.miss_sat _ _ _ hSat hhook
      · rw [hcon]; exact hSat
  · rcases hh : cacheOnCacheHit cfg s k it with _ | sb <;> rw [hh] at h
    · exact Option.noConfusion h
    · rw [Option.map_some', Option.some_inj] at h
      obtain rfl : sb = s2 := congrArg Prod.snd h
      obtain ⟨h1, h2⟩ := cacheOnCacheHit_spec cfg hh
      exact ⟨by rw [h2]; exact hSat, by rw [h1]; exact hWF⟩

/-- Constraint satisfaction and store well-formedness are preserved by a
completed remove. -/
theorem cacheRemove_inv (CL : ConstraintLaws cfg.CP)
    {s s2 : CacheState K V σI σE σC} {k : K} {b : Bool}
    (h : cacheRemove cfg s k = some (b, s2)) (hI : CacheInv cfg s) : CacheInv cfg s2 := by
  unfold cacheRemove at h
  rcases hfind : storeFind s.store k with _ | it <;> rw [hfind] at h <;> dsimp only at h
  · rw [Option.some_inj] at h
    obtain rfl : s = s2 := congrArg Prod.snd h
    exact hI
  · rcases hrm : cacheRemoveEntry cfg s k it with _ | sb <;> rw [hrm] at h
    · exact Option.noConfusion h
    · rw [Option.map_some', Option.some_inj] at h
      obtain rfl : sb = s2 := congrArg Prod.snd h
      exact cacheRemoveEntry_inv cfg CL hrm hI

/-- Constraint satisfaction and store well-formedness are preserved by a
completed import loop. -/
theorem importLoop_inv (CL : ConstraintLaws cfg.CP) :
    ∀ (coll : List (K × V)) (s s2 : CacheState K V σI σE σC),
      importLoop cfg s coll = some s2 → CacheInv cfg s → CacheInv cfg s2 := by
  intro coll
  induction coll with
  | nil =>
    intro s s2 h hI
    rw [importLoop, Option.some_inj] at h
    subst h
    exact hI
  | cons hd rest ih =>
    intro s s2 h hI
    obtain ⟨k, v⟩ := hd
    rw [importLoop] at h
    by_cases hca : cfg.CP.can_add s.con k (mkItem (cfg.measureKey k) v (cfg.measureValue v)) = true
    · rw [if_pos hca] at h
      rcases hiou : insertOrUpdate cfg s k (mkItem (cfg.measureKey k) v (cfg.measureValue v))
          with _ | sb <;> rw [hiou] at h
      · exact Option.noConfusion h
      · exact ih _ _ h (insertOrUpdate_inv cfg CL hiou hI hca)
    · rw [if_neg hca, Option.some_inj] at h
      subst h
      exact hI

/-- Constraint satisfaction and store well-formedness are preserved by
every completed public operation. -/
theorem runOp_inv (hEv : cfg.CP.has_on_evict = true) (CL : ConstraintLaws cfg.CP)
    {s s2 : CacheState K V σI σE σC} {op : Op K V}
    (h : runOp cfg s op = some s2) (hI : CacheInv cfg s) : CacheInv cfg s2 := by
  cases op with
  | insertOp k v =>
    rw [runOp] at h
    rcases hins : cacheInsert cfg s k v with _ | ⟨b, sb⟩ <;> rw [hins] at h
    · exact Option.noConfusion h
    · rw [Option.map_some', Option.some_inj] at h
      subst h
      exact cacheInsert_inv cfg hEv CL hins hI
  | removeOp k =>
    rw [runOp] at h
    rcases hrm : cacheRemove cfg s k with _ | ⟨b, sb⟩ <;> rw [hrm] at h
    · exact Option.noConfusion h
    · rw [Option.map_some', Option.some_inj] at h
      subst h
      exact cacheRemove_inv cfg CL hrm hI
  | clearOp =>
    rw [runOp, Option.some_inj] at h
    subst h
    exact cacheClear_inv cfg CL s
  | retainOp p =>
    rw [runOp] at h
    exact retainLoop_inv cfg CL _ _ _ h hI
  | updateConstraintOp a =>
    rw [runOp] at h
    exact cacheUpdateConstraint_inv cfg h hI.2
  | findOp k =>
    rw [runOp] at h
    rcases hf : cacheFind cfg s k with _ | ⟨r, sb⟩ <;> rw [hf] at h
    · exact Option.noConfusion h
    · rw [Option.map_some', Option.some_inj] at h
      subst h
      exact cacheFind_inv cfg CL hf hI
  | containsOp k =>
    rw [runOp, Option.some_inj] at h
    subst h
    exact hI

/-- Every reachable cache state satisfies the induction invariant. -/
theorem reachableCache_inv (hEv : cfg.CP.has_on_evict = true)
    (CL : ConstraintLaws cfg.CP) {s : CacheState K V σI σE σC}
    (hs : ReachableCache cfg s) : CacheInv cfg s := by
  induction hs with
  | new a => exact ⟨CL.init_sat a, List.nodup_nil⟩
  | imported coll a s h =>
    exact importLoop_inv cfg CL _ _ _ h ⟨CL.init_sat a, List.nodup_nil⟩
  | step s s2 op _ hstep ih => exact runOp_inv cfg hEv CL hstep ih

end InvariantProof

section RoundTripHelpers

variable {K V : Type} [DecidableEq K]

theorem storeFind_put_of_none {store : List (K × Item V)} {k : K} (it : Item V)
    (h : storeFind store k = none) : storeFind (storePut store k it) k = some it := by
  induction store with
  | nil => simp [storePut, storeFind]
  | cons hd tl ih =>
    obtain ⟨k', it'⟩ := hd
    by_cases hk : k = k'
    · rw [storeFind, if_pos hk] at h
      exact Option.noConfusion h
    · rw [storeFind, if_neg hk] at h
      show storeFind ((k', it') :: (tl ++ [(k, it)])) k = some it
      rw [storeFind, if_neg hk]
      exact ih h

theorem storeFind_replace_self {store : List (K × Item V)} {k : K} {old : Item V}
    (it : Item V) (h : storeFind store k = some old) :
    storeFind (storeReplace store k it) k = some it := by
  induction store with
  | nil => exact Option.noConfusion h
  | cons hd tl ih =>
    obtain ⟨k', it'⟩ := hd
    by_cases hk : k = k'
    · rw [storeReplace, if_pos hk, storeFind, if_pos rfl]
    · rw [storeFind, if_neg hk] at h
      rw [storeReplace, if_neg hk, storeFind, if_neg hk]
      exact ih h

end RoundTripHelpers



section ClaimC1

/-- C1.  For every cache (any insertion policy, any eviction policy, and
any constraint policy satisfying the constraint-policy contract, as the two
shipped constraint policies do) and every sequence of public operations
that run to completion — insert, remove, clear, retain, update_constraint,
find, contains, and either constructor including import — the constraint
policy's is_satisfied() returns true immediately after each completed
operation, i.e. in every reachable state. -/
theorem C1_constraint_satisfied_after_completed_operations
    {K V σI σE σC : Type} [DecidableEq K] (cfg : CacheCfg K V σI σE σC)
    (hEv : cfg.CP.has_on_evict = true) (CL : ConstraintLaws cfg.CP)
    (s : CacheState K V σI σE σC) (hs : ReachableCache cfg s) :
    cfg.CP.is_satisfied s.con = true :=
  (reachableCache_inv cfg hEv CL hs).1

/-- Witness for C1: the demonstration cache with an item-count budget of
two, after a completed insert, reports a satisfied constraint. -/
theorem C1_witness :
    (countPolicy Nat Nat).is_satisfied demoStateIns1.con = true :=
  C1_constraint_satisfied_after_completed_operations demoCfg rfl
    (countPolicy_laws Nat Nat) demoStateIns1
    (.step (mkCache demoCfg 2) demoStateIns1 (.insertOp 1 5) (.new 2) (by decide))

end ClaimC1

section ClaimC2

/-- C2.  For every cache state and every (key, value) pair, if insert
returns false then the entire cache state is unchanged: the key-to-item
store, all three policy states (hence no on_insert / on_update / on_evict
event was dispatched, as the ghost event log also shows), and the hit and
miss statistics accumulators. -/
theorem C2_failed_insert_leaves_cache_unchanged
    {K V σI σE σC : Type} [DecidableEq K] (cfg : CacheCfg K V σI σE σC)
    {s s2 : CacheState K V σI σE σC} {k : K} {v : V}
    (h : cacheInsert cfg s k v = some (false, s2)) : s2 = s := by
  unfold cacheInsert at h
  set item : Item V := mkItem (cfg.measureKey k) v (cfg.measureValue v) with hitemdef
  rcases hfind : storeFind s.store k with _ | old <;> rw [hfind] at h <;> dsimp only at h
  · rcases hchk : checkInsert cfg s k item with _ | ⟨b2, s3⟩ <;> rw [hchk] at h
    · exact Option.noConfusion h
    · cases b2 <;> dsimp only at h
      · rw [Option.some_inj] at h
        obtain rfl : s3 = s2 := congrArg Prod.snd h
        exact checkInsert_false cfg hchk
      · rcases hdisp : cacheOnInsert cfg { s3 with store := storePut s3.store k item } k item
            with _ | s4 <;> rw [hdisp] at h
        · exact Option.noConfusion h
        · rw [Option.map_some', Option.some_inj] at h
          exact absurd (congrArg Prod.fst h) (by simp)
  · rcases hchk : checkReplace cfg s k old item with _ | ⟨b2, s3⟩ <;> rw [hchk] at h
    · exact Option.noConfusion h
    · cases b2 <;> dsimp only at h
      · rw [Option.some_inj] at h
        obtain rfl : s3 = s2 := congrArg Prod.snd h
        exact checkReplace_false cfg hchk
      · rcases hiou : insertOrUpdate cfg s3 k item with _ | s4 <;> rw [hiou] at h
        · exact Option.noConfusion h
        · rw [Option.map_some', Option.some_inj] at h
          exact absurd (congrArg Prod.fst h) (by simp)

/-- Witness for C2: inserting into a zero-budget item-count cache fails
and leaves the freshly constructed state intact. -/
theorem C2_witness :
    ((mkCache demoCfg 0 : CacheState Nat Nat Unit (LRUState Nat) CountState)
      = mkCache demoCfg 0) ∧
    cacheInsert demoCfg (mkCache demoCfg 0) 1 5 = some (false, mkCache demoCfg 0) :=
  ⟨@C2_failed_insert_leaves_cache_unchanged Nat Nat Unit (LRUState Nat) CountState _
      demoCfg (mkCache demoCfg 0) (mkCache demoCfg 0) 1 5 (by decide), by decide⟩

end ClaimC2

section ClaimC5

/-- C5.  For every well-formed cache, if insert(k, v) returns true then the
store immediately holds the freshly measured item carrying v under k, and
any immediately following completed find(k) returns some v — a copy of the
value just stored — never none and never an older value.  (The constraint
policy necessarily implements on_evict, so its dispatch trait holds.) -/
theorem C5_insert_true_then_find_returns_value
    {K V σI σE σC : Type} [DecidableEq K] (cfg : CacheCfg K V σI σE σC)
    (hEv : cfg.CP.has_on_evict = true)
    {s s2 : CacheState K V σI σE σC} {k : K} {v : V}
    (hWF : (storeKeys s.store).Nodup)
    (h : cacheInsert cfg s k v = some (true, s2)) :
    storeFind s2.store k = some (mkItem (cfg.measureKey k) v (cfg.measureValue v)) ∧
    ∀ r s3, cacheFind cfg s2 k = some (r, s3) → r = some v := by
  have hstore : storeFind s2.store k =
      some (mkItem (cfg.measureKey k) v (cfg.measureValue v)) := by
    unfold cacheInsert at h
    set item : Item V := mkItem (cfg.measureKey k) v (cfg.measureValue v) with hitemdef
    rcases hfind : storeFind s.store k with _ | old <;> rw [hfind] at h <;> dsimp only at h
    · rcases hchk : checkInsert cfg s k item with _ | ⟨b2, s3⟩ <;> rw [hchk] at h
      · exact Option.noConfusion h
      · cases b2 <;> dsimp only at h
        · rw [Option.some_inj] at h
          exact absurd (congrArg Prod.fst h) (by simp)
        · rcases hdisp : cacheOnInsert cfg { s3 with store := storePut s3.store k item } k item
              with _ | s4 <;> rw [hdisp] at h
          · exact Option.noConfusion h
          · rw [Option.map_some', Option.some_inj] at h
            obtain rfl : s4 = s2 := congrArg Prod.snd h
            obtain ⟨acc, _, _, hnone, _, _, _⟩ := checkInsert_true cfg hEv hchk
            obtain ⟨h1, _, _, _⟩ := cacheOnInsert_spec cfg hdisp
            rw [h1]
            exact storeFind_put_of_none item (hnone k hfind)
    · rcases hchk : checkReplace cfg s k old item with _ | ⟨b2, s3⟩ <;> rw [hchk] at h
      · exact Option.noConfusion h
      · cases b2 <;> dsimp only at h
        · rw [Option.some_inj] at h
          exact absurd (congrArg Prod.fst h) (by simp)
        · rcases hiou : insertOrUpdate cfg s3 k item with _ | s4 <;> rw [hiou] at h
          · exact Option.noConfusion h
          · rw [Option.map_some', Option.some_inj] at h
            obtain rfl : s4 = s2 := congrArg Prod.snd h
            obtain ⟨acc, _, _, _, _, _, hend⟩ := checkReplace_true cfg hEv hWF hchk
            unfold insertOrUpdate at hiou
            rcases hend with ⟨hfind3, _⟩ | ⟨hfind3, _⟩
            · rw [hfind3, hfind] at hiou
              dsimp only at hiou
              obtain ⟨h1, _, _, _⟩ := cacheOnUpdate_spec cfg hiou
              rw [h1]
              exact storeFind_replace_self item (hfind3.trans hfind)
            · rw [hfind3] at hiou
              dsimp only at hiou
              obtain ⟨h1, _, _, _⟩ := cacheOnInsert_spec cfg hiou
              rw [h1]
              exact storeFind_put_of_none item hfind3
  refine ⟨hstore, ?_⟩
  intro r s3 hf
  unfold cacheFind at hf
  rw [hstore] at hf
  dsimp only at hf
  rcases hh : cacheOnCacheHit cfg s2 k
      (mkItem (cfg.measureKey k) v (cfg.measureValue v)) with _ | sb <;> rw [hh] at hf
  · exact Option.noConfusion hf
  · rw [Option.map_some', Option.some_inj] at hf
    exact (congrArg Prod.fst hf).symm

/-- Witness for C5: in the demonstration cache, inserting key 1 with value
5 stores the measured item for it. -/
theorem C5_witness :
    storeFind demoStateIns1.store 1 = some (mkItem 1 5 1) :=
  (@C5_insert_true_then_find_returns_value Nat Nat Unit (LRUState Nat) CountState _
    demoCfg rfl (mkCache demoCfg 2) demoStateIns1 1 5 (by decide) (by decide)).1

end ClaimC5

section ClaimC3

/-- C3.  Dispatch of on_cache_hit in the current Cache::on_cache_hit: on a
find that hits a resident key of an EvictionLRU cache, the eviction policy
(which declares an on_cache_hit handler) receives the event twice, and the
constraint policy receives it zero times — the third dispatch block tests
and invokes the eviction policy where the symmetric code would target the
constraint policy.  This refutes the claim that each declaring policy
receives the event exactly once in the order admission, eviction,
constraint. -/
theorem C3_on_cache_hit_double_dispatch_to_eviction :
    (cacheFind demoCfg demoStateIns1 1).map (fun p => p.2.log) =
      some (demoStateIns1.log ++ [(.hitEv, .evictionTag), (.hitEv, .evictionTag)]) ∧
    (cacheFind demoCfg demoStateIns1 1).map (fun p =>
        (p.2.log.count (.hitEv, .constraintTag), p.2.log.count (.hitEv, .evictionTag))) =
      some (0, 2) := by
  exact ⟨by decide, by decide⟩

end ClaimC3

section ClaimC4

/-- C4.  EvictionLRU::on_evict on a key that is not the least-recently-used
tail erases only the m_nodes map entry and leaves the node in the recency
list.  Running insert 1, insert 2, remove 2 (key 2 is at the front, not the
tail) completes, leaves only key 1 in the store and in the map, yet the
recency list still holds key 2, so victims() yields the non-resident key 2
outside any prepared-eviction window.  This refutes the claim that
on_evict removes the node from both the map and the list and that victims()
never yields a non-resident key. -/
theorem C4_lru_on_evict_leaves_stale_list_node :
    ((cacheInsert demoCfg (mkCache demoCfg 10) 1 5).bind fun p1 =>
      (cacheInsert demoCfg p1.2 2 6).bind fun p2 =>
        (cacheRemove demoCfg p2.2 2).map fun p3 =>
          (p3.1, storeKeys p3.2.store, (lruPolicy Nat Nat).victims p3.2.ev,
           p3.2.ev.nodes, p3.2.ev.keys)) =
      some (true, [1], [1, 2], [1], [2, 1]) := by
  decide

end ClaimC4

section ClaimC8

/-- Counterexample to C8: a freshly constructed byte-budget cache with
maximum memory 0 admits an item whose measured total size is 0 —
can_add compares used + total less-or-equal maximum, and 0 + 0 is within a
zero budget — so insert returns true, not false. -/
theorem C8_counterexample_zero_size_admitted :
    (cacheInsert demoMemZeroCfg (mkCache demoMemZeroCfg 0) 1 5).map Prod.fst =
      some true := by
  decide

/-- Shortcut through Cache::insert when the key is absent and check_insert
already failed. -/
theorem cacheInsert_of_checkInsert_false {K V σI σE σC : Type} [DecidableEq K]
    (cfg : CacheCfg K V σI σE σC) {s : CacheState K V σI σE σC} {k : K} {v : V}
    (hfind : storeFind s.store k = none)
    (hchk : checkInsert cfg s k (mkItem (cfg.measureKey k) v (cfg.measureValue v)) =
      some (false, s)) :
    cacheInsert cfg s k v = some (false, s) := by
  unfold cacheInsert
  rw [hfind]
  dsimp only
  rw [hchk]

/-- Shortcut through Cache::check_insert when the constraint refuses the
candidate and the eviction policy offers no victim. -/
theorem checkInsert_no_room_no_victims {K V σI σE σC : Type} [DecidableEq K]
    (cfg : CacheCfg K V σI σE σC) {s : CacheState K V σI σE σC} {key : K}
    {item : Item V} (hca : cfg.CP.can_add s.con key item = false)
    (hvs : cfg.EP.victims s.ev = []) :
    checkInsert cfg s key item = some (false, s) := by
  unfold checkInsert
  rw [if_neg (by rw [hca]; exact Bool.false_ne_true), hvs]
  rw [show collectInsertVictims cfg s.ins key item s.store [] s.con [] =
    some (.finish s.con []) from rfl]
  dsimp only
  rw [if_neg (by rw [hca]; exact Bool.false_ne_true)]

/-- C8, amended.  A freshly constructed cache with a zero budget rejects
every insert whose admission the constraint has any reason to refuse:
with the item-count constraint (maximum count 0) every insert returns
false; with the byte-budget constraint (maximum memory 0) every insert of
an item of positive measured total size returns false.  An item measuring
zero bytes is admitted by the byte-budget constraint (the counterexample),
so the original claim's parenthetical about zero-size items fails.  Both
parts hold for every insertion policy and every eviction policy whose
fresh state offers no victims. -/
theorem C8_amended_zero_budget_rejects
    {K V σI σE : Type} [DecidableEq K]
    (IP : InsertionPolicyM K V σI) (EP : EvictionPolicyM K V σE)
    (mk : K → Nat) (mv : V → Nat)
    (hvs : EP.victims EP.initSt = [])
    (k : K) (v : V) :
    (cacheInsert (CacheCfg.mk IP EP (countPolicy K V) mk mv)
        (mkCache (CacheCfg.mk IP EP (countPolicy K V) mk mv) 0) k v =
      some (false, mkCache (CacheCfg.mk IP EP (countPolicy K V) mk mv) 0)) ∧
    (0 < (mkItem (mk k) v (mv v)).total_size →
      cacheInsert (CacheCfg.mk IP EP (memoryPolicy K V) mk mv)
          (mkCache (CacheCfg.mk IP EP (memoryPolicy K V) mk mv) 0) k v =
        some (false, mkCache (CacheCfg.mk IP EP (memoryPolicy K V) mk mv) 0)) := by
  constructor
  · refine cacheInsert_of_checkInsert_false _ ?_ ?_
    · rfl
    apply checkInsert_no_room_no_victims
    · show decide (0 < 0 % SIZE_W) = false
      simp
    · exact hvs
  · intro hpos
    refine cacheInsert_of_checkInsert_false _ ?_ ?_
    · rfl
    apply checkInsert_no_room_no_victims
    · show decide (addW 0 (mkItem (mk k) v (mv v)).total_size ≤ 0 % SIZE_W) = false
      have ht : (mkItem (mk k) v (mv v)).total_size < SIZE_W := by
        show addW _ _ < SIZE_W
        exact Nat.mod_lt _ (by decide)
      have : addW 0 (mkItem (mk k) v (mv v)).total_size =
          (mkItem (mk k) v (mv v)).total_size := by
        show (0 + _) % SIZE_W = _
        rw [Nat.zero_add]
        exact Nat.mod_eq_of_lt ht
      rw [this]
      simp only [Nat.zero_mod, decide_eq_false_iff_not, not_le]
      exact hpos
    · exact hvs

/-- Witness for the amended C8: the concrete demonstration policies with a
unit size measure; both zero-budget constraints reject the insert. -/
theorem C8_amended_witness :
    (cacheInsert (CacheCfg.mk (alwaysPolicy Nat Nat) (lruPolicy Nat Nat)
          (countPolicy Nat Nat) (fun _ => 1) (fun _ => 1))
        (mkCache (CacheCfg.mk (alwaysPolicy Nat Nat) (lruPolicy Nat Nat)
          (countPolicy Nat Nat) (fun _ => 1) (fun _ => 1)) 0) 1 5).map Prod.fst =
      some false ∧
    (cacheInsert (CacheCfg.mk (alwaysPolicy Nat Nat) (lruPolicy Nat Nat)
          (memoryPolicy Nat Nat) (fun _ => 1) (fun _ => 1))
        (mkCache (CacheCfg.mk (alwaysPolicy Nat Nat) (lruPolicy Nat Nat)
          (memoryPolicy Nat Nat) (fun _ => 1) (fun _ => 1)) 0) 1 5).map Prod.fst =
      some false := by
  obtain ⟨h1, h2⟩ := C8_amended_zero_budget_rejects (alwaysPolicy Nat Nat)
    (lruPolicy Nat Nat) (fun _ => 1) (fun _ => 1) rfl 1 5
  constructor
  · rw [h1]; rfl
  · rw [h2 (by decide)]; rfl

end ClaimC8

section FreshTLFULemmas

theorem minstdStream_length (st n : Nat) : (minstdStream st n).length = n := by
  induction n generalizing st with
  | zero => rfl
  | succ n ih => simp [minstdStream, ih]

theorem mixerProbes_length (seed range n : Nat) : (mixerProbes seed range n).length = n := by
  simp [mixerProbes, minstdStream_length]

theorem getD_replicate {α : Type} : ∀ (n i : Nat) (a : α), (List.replicate n a).getD i a = a := by
  intro n
  induction n with
  | zero => intro i a; cases i <;> rfl
  | succ n ih =>
    intro i a
    cases i with
    | zero => rfl
    | succ j => exact ih j a

theorem bloomContains_fresh {K : Type} (hash : K → Nat) (m k : Nat) (hk : 0 < k)
    (key : K) : bloomContains hash (mkBloomRaw m k) key = false := by
  unfold bloomContains mkBloomRaw
  rcases hp : mixerProbes (hash key) (List.replicate m false).length k with _ | ⟨p, rest⟩
  · have := mixerProbes_length (hash key) (List.replicate m false).length k
    rw [hp, List.length_nil] at this
    omega
  · simp [getD_replicate]

theorem cbfEstimate_fresh {K : Type} (hash : K → Nat) (m k card : Nat) (hk : 0 < k)
    (key : K) : cbfEstimate hash (mkCBFRaw card m k) key = 0 := by
  unfold cbfEstimate mkCBFRaw cbfMinOf
  rcases hp : mixerProbes (hash key) (List.replicate m 0).length k with _ | ⟨p, rest⟩
  · have := mixerProbes_length (hash key) (List.replicate m 0).length k
    rw [hp, List.length_nil] at this
    omega
  · rw [List.foldl_cons, getD_replicate]
    have hz : ∀ (l : List Nat),
        l.foldl (fun mm i => min ((List.replicate m 0).getD i 0) mm) 0 = 0 := by
      intro l
      induction l with
      | nil => rfl
      | cons hd tl ih => rw [List.foldl_cons, getD_replicate, Nat.zero_min, ih]
    rw [Nat.zero_min]
    exact hz rest

theorem tlfuEstimate_fresh {K : Type} (hash : K → Nat) (m k card : Nat) (hk : 0 < k)
    (key : K) : tlfuEstimate hash (tlfuFresh m k card) key = 0 := by
  unfold tlfuEstimate tlfuFresh
  rw [bloomContains_fresh hash m k hk key]
  simp [cbfEstimate_fresh hash m k card hk key]

end FreshTLFULemmas

section ClaimC6

/-- Counterexample to C6: after a single find of key 1 (a miss, which puts
key 1 into the gatekeeper), inserting the never-observed key 2 succeeds,
because the gatekeeper probes of key 2 collide with those of key 1
(should_add is a bloom membership test and admits on false positives), so
a key that has never been observed can be admitted. -/
theorem C6_counterexample_false_positive_admits :
    ((cacheFind tlfuDemoCfg (mkCache tlfuDemoCfg 10) 1).bind fun p1 =>
      (cacheInsert tlfuDemoCfg p1.2 2 99).map Prod.fst) = some true := by
  decide

/-- When the admission policy would replace no resident victim with the
candidate, the victim-collection loop of Cache::check_insert either aborts
or exits immediately, leaving the constraint copy and the collected
victims exactly as it received them. -/
theorem collectInsertVictims_no_replace {K V σI σE σC : Type} [DecidableEq K]
    (cfg : CacheCfg K V σI σE σC) (insSt : σI) (key : K) (item : Item V)
    (store : List (K × Item V))
    (hsr : ∀ vv, cfg.IP.should_replace insSt vv key = false) :
    ∀ (vs : List K) (copy : σC) (acc : List (K × Item V)) (r : InsCollect K V σC),
      collectInsertVictims cfg insSt key item store vs copy acc = some r →
      r = InsCollect.abort ∨ r = InsCollect.finish copy acc := by
  intro vs copy acc r h
  cases vs with
  | nil =>
    right
    unfold collectInsertVictims at h
    exact (Option.some_inj.mp h).symm
  | cons v rest =>
    unfold collectInsertVictims at h
    by_cases hca : cfg.CP.can_add copy key item = true
    · rw [if_pos hca, Option.some_inj] at h
      right
      exact h.symm
    · rw [if_neg hca] at h
      rcases hf : storeFind store v with _ | vit <;> rw [hf] at h
      · exact Option.noConfusion h
      · dsimp only at h
        by_cases hsrv : cfg.IP.should_replace insSt v key = true
        · exact absurd hsrv (by rw [hsr v]; exact Bool.false_ne_true)
        · rw [if_neg hsrv] at h
          left
          exact (Option.some_inj.mp h).symm

/-- When the admission policy neither admits the candidate directly nor
would replace any victim with it, Cache::check_insert answers false
whenever it completes. -/
theorem checkInsert_fst_false {K V σI σE σC : Type} [DecidableEq K]
    (cfg : CacheCfg K V σI σE σC) {s : CacheState K V σI σE σC} {key : K}
    {item : Item V}
    (hsa : cfg.IP.should_add s.ins key = false)
    (hsr : ∀ vv, cfg.IP.should_replace s.ins vv key = false)
    {b : Bool} {s2 : CacheState K V σI σE σC}
    (h : checkInsert cfg s key item = some (b, s2)) : b = false := by
  unfold checkInsert at h
  by_cases hca : cfg.CP.can_add s.con key item = true
  · rw [if_pos hca, Option.some_inj] at h
    have hfst := congrArg Prod.fst h
    rw [hsa] at hfst
    exact hfst.symm
  · rw [if_neg hca] at h
    rcases hcol : collectInsertVictims cfg s.ins key item s.store
        (cfg.EP.victims s.ev) s.con [] with _ | r <;> rw [hcol] at h
    · exact Option.noConfusion h
    · rcases collectInsertVictims_no_replace cfg s.ins key item s.store hsr
          (cfg.EP.victims s.ev) s.con [] r hcol with hr | hr
      · subst hr
        dsimp only at h
        exact (congrArg Prod.fst (Option.some_inj.mp h)).symm
      · subst hr
        dsimp only at h
        rw [if_neg hca] at h
        exact (congrArg Prod.fst (Option.some_inj.mp h)).symm

/-- C6, amended.  If the TinyLFU policy state is fresh (no key was ever
observed, so the gatekeeper cannot report a false positive) and the probed
key is not resident, then insert returns false whenever it completes —
admission requires a prior observation.  The original unconditional claim
fails: a gatekeeper false positive under a probe collision with an
observed key admits a never-observed key (the counterexample), and the
importing constructor makes never-observed keys resident, after which
insert succeeds through the replacement path. -/
theorem C6_amended_fresh_tinylfu_rejects
    {K V σE σC : Type} [DecidableEq K]
    (hash : K → Nat) (m kk card : Nat) (hk : 0 < kk)
    (EP : EvictionPolicyM K V σE) (CP : ConstraintPolicyM K V σC)
    (mk : K → Nat) (mv : V → Nat)
    (s : CacheState K V TLFUState σE σC)
    (hins : s.ins = tlfuFresh m kk card)
    (key : K) (hres : storeFind s.store key = none) (v : V) (b : Bool)
    (s2 : CacheState K V TLFUState σE σC)
    (h : cacheInsert (CacheCfg.mk (tlfuPolicy K V hash m kk card) EP CP mk mv)
      s key v = some (b, s2)) :
    b = false := by
  have hsa : (CacheCfg.mk (tlfuPolicy K V hash m kk card) EP CP mk
      mv).IP.should_add s.ins key = false := by
    show bloomContains hash s.ins.gatekeeper key = false
    rw [hins]
    exact bloomContains_fresh hash m kk hk key
  have hsr : ∀ vv : K, (CacheCfg.mk (tlfuPolicy K V hash m kk card) EP CP mk
      mv).IP.should_replace s.ins vv key = false := by
    intro vv
    show decide (tlfuEstimate hash s.ins vv < tlfuEstimate hash s.ins key) = false
    rw [hins, tlfuEstimate_fresh hash m kk card hk key]
    simp
  unfold cacheInsert at h
  rw [hres] at h
  dsimp only at h
  rcases hchk : checkInsert (CacheCfg.mk (tlfuPolicy K V hash m kk card) EP CP mk mv)
      s key (mkItem (mk key) v (mv v)) with _ | p <;> rw [hchk] at h
  · exact Option.noConfusion h
  · obtain ⟨b2, s3⟩ := p
    have hb2 : b2 = false := checkInsert_fst_false _ hsa hsr hchk
    subst hb2
    dsimp only at h
    exact (congrArg Prod.fst (Option.some_inj.mp h)).symm

/-- Witness for the amended C6: on the demonstration TinyLFU cache with no
prior observation at all, inserting key 2 completes and returns false. -/
theorem C6_amended_fresh_tinylfu_rejects_witness :
    (cacheInsert tlfuDemoCfg (mkCache tlfuDemoCfg 10) 2 99).map Prod.fst =
      some false := by
  rcases hrun : cacheInsert tlfuDemoCfg (mkCache tlfuDemoCfg 10) 2 99 with _ | p
  · have hs : (cacheInsert tlfuDemoCfg (mkCache tlfuDemoCfg 10) 2 99).isSome = true := by
      decide
    rw [hrun] at hs
    exact Bool.noConfusion hs
  · obtain ⟨b, s2⟩ := p
    have hb := C6_amended_fresh_tinylfu_rejects (fun _ => 5) 9 6 1 (by decide)
      (lruPolicy Nat Nat) (countPolicy Nat Nat) (fun _ => 1) (fun _ => 1)
      (mkCache tlfuDemoCfg 10) rfl 2 rfl 99 b s2 hrun
    subst hb
    rfl

end ClaimC6

section ClaimC10

/-- Cache::insert_or_update never consults the admission decision
functions: it only dispatches events. -/
theorem insertOrUpdate_withDecisions {K V σI σE σC : Type} [DecidableEq K]
    (cfg : CacheCfg K V σI σE σC) (sa : σI → K → Bool) (sr : σI → K → K → Bool)
    (s : CacheState K V σI σE σC) (k : K) (item : Item V) :
    insertOrUpdate (withDecisions cfg sa sr) s k item = insertOrUpdate cfg s k item := rfl

/-- Cache::import never consults the admission decision functions: the
imported cache is the same under any should_add / should_replace. -/
theorem importLoop_withDecisions {K V σI σE σC : Type} [DecidableEq K]
    (cfg : CacheCfg K V σI σE σC) (sa : σI → K → Bool) (sr : σI → K → K → Bool) :
    ∀ (coll : List (K × V)) (s : CacheState K V σI σE σC),
      importLoop (withDecisions cfg sa sr) s coll = importLoop cfg s coll := by
  intro coll
  induction coll with
  | nil => intro s; rfl
  | cons p rest ih =>
    intro s
    obtain ⟨k, v⟩ := p
    show (if cfg.CP.can_add s.con k (mkItem (cfg.measureKey k) v (cfg.measureValue v)) = true then
        match insertOrUpdate (withDecisions cfg sa sr) s k
            (mkItem (cfg.measureKey k) v (cfg.measureValue v)) with
        | some s2 => importLoop (withDecisions cfg sa sr) s2 rest
        | none => none
      else some s) =
      (if cfg.CP.can_add s.con k (mkItem (cfg.measureKey k) v (cfg.measureValue v)) = true then
        match insertOrUpdate cfg s k (mkItem (cfg.measureKey k) v (cfg.measureValue v)) with
        | some s2 => importLoop cfg s2 rest
        | none => none
      else some s)
    rw [insertOrUpdate_withDecisions cfg sa sr s k
      (mkItem (cfg.measureKey k) v (cfg.measureValue v))]
    rcases hio : insertOrUpdate cfg s k (mkItem (cfg.measureKey k) v (cfg.measureValue v))
        with _ | s2
    · rfl
    · dsimp only
      rw [ih s2]

/-- C10.  The importing constructor bypasses the admission policy.
First conjunct: the import loop computes the same cache under any
replacement of the admission decision functions, so should_add is never
consulted.  Second and third conjuncts: at each pair the loop stops
silently (returning the cache built so far, discarding the rest) exactly
when the constraint refuses the item, and otherwise inserts or updates
the pair and continues.  Last conjunct, the TinyLFU consequence on the
demonstration cache: importing the never-observed key 2 yields a cache
containing it, while a direct insert of the same pair into the same fresh
cache returns false. -/
theorem C10_import_bypasses_admission {K V σI σE σC : Type} [DecidableEq K]
    (cfg : CacheCfg K V σI σE σC)
    (sa : σI → K → Bool) (sr : σI → K → K → Bool)
    (s : CacheState K V σI σE σC) (k : K) (v : V) (rest : List (K × V)) :
    (∀ (coll : List (K × V)) (s0 : CacheState K V σI σE σC),
      importLoop (withDecisions cfg sa sr) s0 coll = importLoop cfg s0 coll) ∧
    (cfg.CP.can_add s.con k (mkItem (cfg.measureKey k) v (cfg.measureValue v)) = false →
      importLoop cfg s ((k, v) :: rest) = some s) ∧
    (cfg.CP.can_add s.con k (mkItem (cfg.measureKey k) v (cfg.measureValue v)) = true →
      importLoop cfg s ((k, v) :: rest) =
        match insertOrUpdate cfg s k (mkItem (cfg.measureKey k) v (cfg.measureValue v)) with
        | some s2 => importLoop cfg s2 rest
        | none => none) ∧
    ((mkImportedCache tlfuDemoCfg [(2, 99)] 10).map (fun st => cacheContains st 2) =
        some true ∧
      (cacheInsert tlfuDemoCfg (mkCache tlfuDemoCfg 10) 2 99).map Prod.fst = some false) := by
  refine ⟨importLoop_withDecisions cfg sa sr, ?_, ?_, by decide, by decide⟩
  · intro hca
    unfold importLoop
    rw [if_neg (by rw [hca]; exact Bool.false_ne_true)]
  · intro hca
    show (if cfg.CP.can_add s.con k (mkItem (cfg.measureKey k) v (cfg.measureValue v)) = true then
        match insertOrUpdate cfg s k (mkItem (cfg.measureKey k) v (cfg.measureValue v)) with
        | some s2 => importLoop cfg s2 rest
        | none => none
      else some s) = _
    rw [if_pos hca]

/-- Witness for C10 at concrete inputs: on the demonstration TinyLFU cache
a zero-budget import stops before its only pair, and a budget-10 import
takes the insert step on it. -/
theorem C10_import_bypasses_admission_witness :
    importLoop tlfuDemoCfg (mkCache tlfuDemoCfg 0) [(1, 5)] =
      some (mkCache tlfuDemoCfg 0) ∧
    importLoop tlfuDemoCfg (mkCache tlfuDemoCfg 10) [(1, 5)] =
      (match insertOrUpdate tlfuDemoCfg (mkCache tlfuDemoCfg 10) 1 (mkItem 1 5 1) with
       | some s2 => importLoop tlfuDemoCfg s2 []
       | none => none) := by
  constructor
  · exact (C10_import_bypasses_admission tlfuDemoCfg (fun _ _ => true) (fun _ _ _ => true)
      (mkCache tlfuDemoCfg 0) 1 5 []).2.1 (by decide)
  · exact (C10_import_bypasses_admission tlfuDemoCfg (fun _ _ => true) (fun _ _ _ => true)
      (mkCache tlfuDemoCfg 10) 1 5 []).2.2.1 (by decide)

end ClaimC10

section ClaimC7

theorem cbfAdd_cells {K : Type} (hash : K → Nat) (st : CBFState) (key : K) :
    (cbfAdd hash st key).cells =
      (List.foldl
        (cbfStep (cbfMinOf st.cells (mixerProbes (hash key) st.cells.length st.nbHashes))
          (if cbfMinOf st.cells (mixerProbes (hash key) st.cells.length st.nbHashes) = 0
            then 1 else 0))
        (st.cells, st.nbNonzero)
        (mixerProbes (hash key) st.cells.length st.nbHashes)).1 := rfl

theorem cbfAdd_nbHashes {K : Type} (hash : K → Nat) (st : CBFState) (key : K) :
    (cbfAdd hash st key).nbHashes = st.nbHashes := rfl

theorem getD_set_self : ∀ (l : List Nat) (i a : Nat), i < l.length →
    (l.set i a).getD i 0 = a := by
  intro l
  induction l with
  | nil => intro i a h; exact absurd h (Nat.not_lt_zero i)
  | cons hd tl ih =>
    intro i a h
    cases i with
    | zero => rfl
    | succ j => exact ih j a (Nat.lt_of_succ_lt_succ h)

theorem getD_set_ne : ∀ (l : List Nat) (i j a : Nat), i ≠ j →
    (l.set i a).getD j 0 = l.getD j 0 := by
  intro l
  induction l with
  | nil => intro i j a h; rfl
  | cons hd tl ih =>
    intro i j a h
    cases i with
    | zero =>
      cases j with
      | zero => exact absurd rfl h
      | succ j2 => rfl
    | succ i2 =>
      cases j with
      | zero => rfl
      | succ j2 => exact ih i2 j2 a (fun hh => h (congrArg Nat.succ hh))

theorem getD_lt_of_forall : ∀ (l : List Nat) (i W : Nat), 0 < W →
    (∀ c ∈ l, c < W) → l.getD i 0 < W := by
  intro l
  induction l with
  | nil => intro i W hW _; cases i <;> exact hW
  | cons hd tl ih =>
    intro i W hW h
    cases i with
    | zero => exact h hd (List.mem_cons_self hd tl)
    | succ j => exact ih j W hW (fun c hc => h c (List.mem_cons_of_mem hd hc))

theorem mixerProbes_lt (seed range n : Nat) (hr : 0 < range) :
    ∀ p ∈ mixerProbes seed range n, p < range := by
  intro p hp
  unfold mixerProbes at hp
  obtain ⟨x, _, rfl⟩ := List.mem_map.mp hp
  exact Nat.mod_lt x hr

theorem mixerProbes_ne_nil (seed range n : Nat) (hn : 0 < n) :
    mixerProbes seed range n ≠ [] := by
  intro he
  have := mixerProbes_length seed range n
  rw [he, List.length_nil] at this
  omega

/-- Folding min over probes that all read the same counter value. -/
theorem foldl_min_uniform (cells : List Nat) (c : Nat) :
    ∀ (l : List Nat) (A : Nat), (∀ i ∈ l, cells.getD i 0 = c) → l ≠ [] →
      List.foldl (fun a i => min (cells.getD i 0) a) A l = min c A := by
  intro l
  induction l with
  | nil => intro A _ hne; exact absurd rfl hne
  | cons i rest ih =>
    intro A h hne
    rw [List.foldl_cons, h i (List.mem_cons_self i rest)]
    by_cases hr : rest = []
    · subst hr; rfl
    · rw [ih (min c A) (fun j hj => h j (List.mem_cons_of_mem i hj)) hr,
        ← Nat.min_assoc, Nat.min_self]

theorem cbfMinOf_uniform (cells idxs : List Nat) (c : Nat)
    (hc : c < U32_W) (hne : idxs ≠ []) (hu : ∀ i ∈ idxs, cells.getD i 0 = c) :
    cbfMinOf cells idxs = c := by
  unfold cbfMinOf
  rw [foldl_min_uniform cells c idxs (U32_W - 1) hu hne]
  have hW : 2 ≤ U32_W := by decide
  exact Nat.min_eq_left (by omega)

/-- The conservative-increment fold raises every probed counter holding
the minimum to its successor, exactly once per slot, and leaves already
raised slots alone. -/
theorem cbfFold_step (m c z : Nat) (hcne : c ≠ (c + 1) % U32_W) :
    ∀ (l : List Nat) (cells : List Nat) (nz : Nat),
      cells.length = m → (∀ i ∈ l, i < m) →
      (∀ i ∈ l, cells.getD i 0 = c ∨ cells.getD i 0 = (c + 1) % U32_W) →
      (List.foldl (cbfStep c z) (cells, nz) l).1.length = m ∧
      (∀ i ∈ l, (List.foldl (cbfStep c z) (cells, nz) l).1.getD i 0 = (c + 1) % U32_W) ∧
      (∀ i0, cells.getD i0 0 = (c + 1) % U32_W →
        (List.foldl (cbfStep c z) (cells, nz) l).1.getD i0 0 = (c + 1) % U32_W) := by
  intro l
  induction l with
  | nil =>
    intro cells nz hlen _ _
    exact ⟨hlen, fun i hi => absurd hi (List.not_mem_nil i), fun i0 h0 => h0⟩
  | cons i rest ih =>
    intro cells nz hlen hb hu
    rw [List.foldl_cons]
    have him : i < cells.length := by
      rw [hlen]; exact hb i (List.mem_cons_self i rest)
    rcases hu i (List.mem_cons_self i rest) with hc | hc'
    · have hstep : cbfStep c z (cells, nz) i =
          (cells.set i ((c + 1) % U32_W), (nz + z) % U32_W) := by
        unfold cbfStep
        dsimp only
        rw [if_pos hc, hc]
      rw [hstep]
      have hlen1 : (cells.set i ((c + 1) % U32_W)).length = m := by
        rw [List.length_set]; exact hlen
      have hu1 : ∀ j ∈ rest, (cells.set i ((c + 1) % U32_W)).getD j 0 = c ∨
          (cells.set i ((c + 1) % U32_W)).getD j 0 = (c + 1) % U32_W := by
        intro j hj
        by_cases hij : i = j
        · subst hij
          right
          exact getD_set_self cells i _ him
        · rw [getD_set_ne cells i j _ hij]
          exact hu j (List.mem_cons_of_mem i hj)
      obtain ⟨A, B, C⟩ := ih (cells.set i ((c + 1) % U32_W)) ((nz + z) % U32_W) hlen1
        (fun j hj => hb j (List.mem_cons_of_mem i hj)) hu1
      refine ⟨A, ?_, ?_⟩
      · intro j hj
        rcases List.mem_cons.mp hj with rfl | hj2
        · exact C j (getD_set_self cells j _ him)
        · exact B j hj2
      · intro i0 h0
        have hii0 : i ≠ i0 := by
          intro he
          rw [← he, hc] at h0
          exact hcne h0
        exact C i0 (by rw [getD_set_ne cells i i0 _ hii0]; exact h0)
    · have hstep : cbfStep c z (cells, nz) i = (cells, nz) := by
        unfold cbfStep
        dsimp only
        rw [if_neg (by rw [hc']; exact fun hh => hcne hh.symm)]
      rw [hstep]
      obtain ⟨A, B, C⟩ := ih cells nz hlen (fun j hj => hb j (List.mem_cons_of_mem i hj))
        (fun j hj => hu j (List.mem_cons_of_mem i hj))
      refine ⟨A, ?_, C⟩
      intro j hj
      rcases List.mem_cons.mp hj with rfl | hj2
      · exact C j hc'
      · exact B j hj2

/-- One add on a filter whose probed counters all hold c < 2^32 raises
them all to (c + 1) % 2^32 and keeps the geometry. -/
theorem cbfAdd_uniform {K : Type} (hash : K → Nat) (key : K) (m k c : Nat)
    (hm : 0 < m) (hk : 0 < k) (hc : c < U32_W) (hcne : c ≠ (c + 1) % U32_W)
    (st : CBFState) (hlen : st.cells.length = m) (hnb : st.nbHashes = k)
    (hu : ∀ i ∈ mixerProbes (hash key) m k, st.cells.getD i 0 = c) :
    (cbfAdd hash st key).cells.length = m ∧
    (∀ i ∈ mixerProbes (hash key) m k,
      (cbfAdd hash st key).cells.getD i 0 = (c + 1) % U32_W) := by
  have hidxs : mixerProbes (hash key) st.cells.length st.nbHashes =
      mixerProbes (hash key) m k := by rw [hlen, hnb]
  have hminv : cbfMinOf st.cells (mixerProbes (hash key) st.cells.length st.nbHashes) = c := by
    rw [hidxs]
    exact cbfMinOf_uniform st.cells _ c hc (mixerProbes_ne_nil _ _ _ hk) hu
  have hrw := cbfAdd_cells hash st key
  rw [hminv, hidxs] at hrw
  obtain ⟨A, B, _⟩ := cbfFold_step m c (if c = 0 then 1 else 0) hcne
    (mixerProbes (hash key) m k) st.cells st.nbNonzero hlen
    (mixerProbes_lt (hash key) m k hm) (fun i hi => Or.inl (hu i hi))
  rw [hrw]
  exact ⟨A, B⟩

/-- After n same-key adds on a fresh filter the geometry is intact and
every probed counter holds n % 2^32. -/
theorem cbfAddN_uniform {K : Type} (hash : K → Nat) (key : K) (m k card : Nat)
    (hm : 0 < m) (hk : 0 < k) :
    ∀ n, (cbfAddN hash key (mkCBFRaw card m k) n).cells.length = m ∧
      (cbfAddN hash key (mkCBFRaw card m k) n).nbHashes = k ∧
      (∀ i ∈ mixerProbes (hash key) m k,
        (cbfAddN hash key (mkCBFRaw card m k) n).cells.getD i 0 = n % U32_W) := by
  have hW : 2 ≤ U32_W := by decide
  intro n
  induction n with
  | zero =>
    refine ⟨List.length_replicate m 0, rfl, ?_⟩
    intro i _
    show (List.replicate m (0 : Nat)).getD i 0 = 0 % U32_W
    rw [getD_replicate, Nat.zero_mod]
  | succ n ih =>
    obtain ⟨hlen, hnb, hu⟩ := ih
    have hlt : n % U32_W < U32_W := Nat.mod_lt n (by omega)
    have hcne : n % U32_W ≠ (n % U32_W + 1) % U32_W := by
      rcases Nat.lt_or_ge (n % U32_W + 1) U32_W with h | h
      · rw [Nat.mod_eq_of_lt h]; omega
      · have heq : n % U32_W + 1 = U32_W := by omega
        rw [heq, Nat.mod_self]
        omega
    obtain ⟨A, B⟩ := cbfAdd_uniform hash key m k (n % U32_W) hm hk hlt hcne
      (cbfAddN hash key (mkCBFRaw card m k) n) hlen hnb hu
    have hmod : (n % U32_W + 1) % U32_W = (n + 1) % U32_W := by
      conv_rhs => rw [Nat.add_mod]
      rw [Nat.mod_eq_of_lt (show 1 < U32_W by omega)]
    refine ⟨A, hnb, ?_⟩
    intro i hi
    rw [← hmod]
    exact B i hi

/-- Exact estimate after n same-key adds on a fresh filter: n % 2^32. -/
theorem cbfAddN_estimate {K : Type} (hash : K → Nat) (key : K) (m k card : Nat)
    (hm : 0 < m) (hk : 0 < k) (n : Nat) :
    cbfEstimate hash (cbfAddN hash key (mkCBFRaw card m k) n) key = n % U32_W := by
  obtain ⟨hlen, hnb, hu⟩ := cbfAddN_uniform hash key m k card hm hk n
  unfold cbfEstimate
  rw [hlen, hnb]
  exact cbfMinOf_uniform _ _ _ (Nat.mod_lt n (by decide)) (mixerProbes_ne_nil _ _ _ hk) hu

theorem getD_map_div2 : ∀ (l : List Nat) (i : Nat),
    (List.map (fun x => x / 2) l).getD i 0 = l.getD i 0 / 2 := by
  intro l
  induction l with
  | nil => intro i; cases i <;> simp
  | cons hd tl ih =>
    intro i
    cases i with
    | zero => rfl
    | succ j => exact ih j

theorem foldl_min_div (cells : List Nat) :
    ∀ (l : List Nat) (x : Nat),
      List.foldl (fun a j => min (cells.getD j 0 / 2) a) (x / 2) l =
      List.foldl (fun a j => min (cells.getD j 0) a) x l / 2 := by
  intro l
  induction l with
  | nil => intro x; rfl
  | cons j rest ih =>
    intro x
    rw [List.foldl_cons, List.foldl_cons,
      show min (cells.getD j 0 / 2) (x / 2) = min (cells.getD j 0) x / 2 from by omega,
      ih (min (cells.getD j 0) x)]

/-- CountingBloomFilter::decay divides the estimate by two exactly
(integer division), for every filter whose counters are uint32 values and
whose probe count is positive. -/
theorem cbfDecay_estimate {K : Type} (hash : K → Nat) (key : K) (st : CBFState)
    (hks : 0 < st.nbHashes) (hcells : ∀ c ∈ st.cells, c < U32_W) :
    cbfEstimate hash (cbfDecay st) key = cbfEstimate hash st key / 2 := by
  have hW : 2 ≤ U32_W := by decide
  unfold cbfEstimate cbfDecay cbfMinOf
  dsimp only
  rw [List.length_map]
  simp only [getD_map_div2]
  rcases hLl : mixerProbes (hash key) st.cells.length st.nbHashes with _ | ⟨i0, rest⟩
  · exact absurd hLl (mixerProbes_ne_nil _ _ _ hks)
  · rw [List.foldl_cons, List.foldl_cons]
    have hg : st.cells.getD i0 0 < U32_W :=
      getD_lt_of_forall st.cells i0 U32_W (by omega) hcells
    rw [show min (st.cells.getD i0 0 / 2) (U32_W - 1) = st.cells.getD i0 0 / 2 from by omega,
      show min (st.cells.getD i0 0) (U32_W - 1) = st.cells.getD i0 0 from by omega]
    exact foldl_min_div st.cells rest (st.cells.getD i0 0)

/-- C7.  First conjunct: after n add calls with the same key on a fresh
counting bloom filter of positive geometry, the estimate for that key is
at most n (it equals n % 2^32).  Second conjunct: one decay at least
halves the estimate of any key, on any filter whose counters are uint32
values and whose probe count is positive. -/
theorem C7_cbf_estimate_le_and_decay_halves
    {K : Type} (hash : K → Nat) (key : K) (m k card n : Nat)
    (hm : 0 < m) (hk : 0 < k)
    (st : CBFState) (hks : 0 < st.nbHashes) (hcells : ∀ c ∈ st.cells, c < U32_W) :
    cbfEstimate hash (cbfAddN hash key (mkCBFRaw card m k) n) key ≤ n ∧
    2 * cbfEstimate hash (cbfDecay st) key ≤ cbfEstimate hash st key := by
  constructor
  · rw [cbfAddN_estimate hash key m k card hm hk n]
    exact Nat.mod_le n U32_W
  · rw [cbfDecay_estimate hash key st hks hcells]
    omega

/-- Witness for C7 at the demonstration geometry: three adds of key 1 on a
fresh 9-cell, 6-probe filter, and a decay of the fresh filter. -/
theorem C7_cbf_estimate_le_and_decay_halves_witness :
    cbfEstimate (fun _ => 5) (cbfAddN (fun _ => 5) 1 (mkCBFRaw 1 9 6) 3) 1 ≤ 3 ∧
    2 * cbfEstimate (fun _ => 5) (cbfDecay (mkCBFRaw 1 9 6)) 1 ≤
      cbfEstimate (fun _ => 5) (mkCBFRaw 1 9 6) 1 :=
  C7_cbf_estimate_le_and_decay_halves (fun _ => 5) 1 9 6 1 3 (by decide) (by decide)
    (mkCBFRaw 1 9 6) (by decide) (by decide)

end ClaimC7

section ClaimC9

/-- The ideal set size at cardinality 1, log(100)/(log 2)^2 = 9.585…,
lies strictly between 9 and 10. -/
theorem idealSetSize_one_bounds : 9 < idealSetSize 1 ∧ idealSetSize 1 < 10 := by
  have hL1 := Real.log_two_gt_d9
  have hL2 := Real.log_two_lt_d9
  have hLpos : (0 : ℝ) < Real.log 2 := by
    have : (0 : ℝ) < 0.6931471803 := by norm_num
    linarith
  have hP2 : Real.log (5 / 4) ≤ 1 / 4 := by
    have := Real.log_le_sub_one_of_pos (show (0 : ℝ) < 5 / 4 by norm_num)
    linarith
  have hP1 : (1 / 5 : ℝ) ≤ Real.log (5 / 4) := by
    have h1 := Real.log_le_sub_one_of_pos (show (0 : ℝ) < 4 / 5 by norm_num)
    have h2 : Real.log ((4 / 5 : ℝ)⁻¹) = -Real.log (4 / 5) := Real.log_inv _
    rw [show ((4 / 5 : ℝ)⁻¹) = 5 / 4 by norm_num] at h2
    linarith
  have h100 : Real.log 100 = 6 * Real.log 2 + 2 * Real.log (5 / 4) := by
    rw [show (100 : ℝ) = 2 ^ 6 * (5 / 4) ^ 2 by norm_num,
      Real.log_mul (by norm_num) (by norm_num), Real.log_pow, Real.log_pow]
    push_cast
    ring
  have hX : idealSetSize 1 = Real.log 100 / Real.log 2 ^ 2 := by
    unfold idealSetSize bfMultiplier
    rw [show (1 / 100 : ℝ) = (100 : ℝ)⁻¹ by norm_num, Real.log_inv]
    push_cast
    ring
  have hsq : (0 : ℝ) < Real.log 2 ^ 2 := by positivity
  have hup : Real.log 2 ^ 2 < 0.6931471808 * Real.log 2 := by nlinarith [hLpos, hL2]
  have hlo : 0.6931471803 * Real.log 2 < Real.log 2 ^ 2 := by nlinarith [hLpos, hL1]
  rw [hX, h100]
  constructor
  · rw [lt_div_iff hsq]
    nlinarith [hup, hL2, hP1]
  · rw [div_lt_iff hsq]
    nlinarith [hlo, hL1, hP2]

theorem idealSetSize_one_floor : ⌊idealSetSize 1⌋ = 9 := by
  obtain ⟨h1, h2⟩ := idealSetSize_one_bounds
  rw [Int.floor_eq_iff]
  constructor
  · push_cast; linarith
  · push_cast; linarith

theorem idealSetSize_one_ceil : ⌈idealSetSize 1⌉ = 10 := by
  obtain ⟨h1, h2⟩ := idealSetSize_one_bounds
  rw [Int.ceil_eq_iff]
  constructor
  · push_cast; linarith
  · push_cast; linarith

theorem optimal_filter_size_one : optimal_filter_size 1 = 9 := by
  unfold optimal_filter_size
  rw [idealSetSize_one_floor]
  rfl

theorem nine_log_two_bounds : 6 ≤ (9 : ℝ) * Real.log 2 ∧ (9 : ℝ) * Real.log 2 < 7 := by
  have hL1 := Real.log_two_gt_d9
  have hL2 := Real.log_two_lt_d9
  constructor <;> linarith

theorem optimal_nb_of_hash_functions_one_nine : optimal_nb_of_hash_functions 1 9 = 6 := by
  unfold optimal_nb_of_hash_functions
  have h9 : ((9 : ℕ) : ℝ) / ((1 : ℕ) : ℝ) * Real.log 2 = 9 * Real.log 2 := by
    push_cast
    ring
  rw [h9]
  obtain ⟨h1, h2⟩ := nine_log_two_bounds
  have hfl : ⌊(9 : ℝ) * Real.log 2⌋ = 6 := by
    rw [Int.floor_eq_iff]
    constructor
    · push_cast; linarith
    · push_cast; linarith
  rw [hfl]
  rfl

/-- Counterexample to C9.  At expected cardinality 1 the source truncates
the ideal size 9.585… to 9 slots (static_cast, rounding toward zero),
whereas the claimed formula ⌈-n ln(0.01)/(ln 2)²⌉ with a minimum of 1
yields 10: the claim's ceiling (and its minimum-1 clamps, which the code
replaces by asserts) does not describe the code. -/
theorem C9_counterexample_size_rounds_down :
    optimal_filter_size 1 = 9 ∧ spec_filter_size 1 = 10 ∧
    optimal_filter_size 1 ≠ spec_filter_size 1 := by
  have hs : spec_filter_size 1 = 10 := by
    unfold spec_filter_size
    rw [idealSetSize_one_ceil]
    rfl
  refine ⟨optimal_filter_size_one, hs, ?_⟩
  rw [optimal_filter_size_one, hs]
  omega

/-- C9, amended.  The filters are sized by truncation, not by the
ceiling: at expected cardinality 1 both constructors build 9 slots and
probe 6 times per operation (⌊9.585…⌋ and ⌊9 · ln 2⌋ = ⌊6.238…⌋), and the
source's asserts — ideal_set_size > 1 and nb_hashes ≥ 1, which replace
the claimed minimum-1 clamps — hold at this cardinality. -/
theorem C9_amended_geometry_truncates :
    optimal_filter_size 1 = 9 ∧
    optimal_nb_of_hash_functions 1 (optimal_filter_size 1) = 6 ∧
    1 < idealSetSize 1 ∧
    (1 : ℝ) ≤ ((9 : ℕ) : ℝ) / ((1 : ℕ) : ℝ) * Real.log 2 ∧
    (mkBloom 1).bits.length = 9 ∧ (mkBloom 1).nbHashes = 6 ∧
    (mkCBF 1).cells.length = 9 ∧ (mkCBF 1).nbHashes = 6 ∧
    (mkCBF 1).cardinality = 1 := by
  have hk : optimal_nb_of_hash_functions 1 (optimal_filter_size 1) = 6 := by
    rw [optimal_filter_size_one]
    exact optimal_nb_of_hash_functions_one_nine
  have hassert1 : (1 : ℝ) < idealSetSize 1 := by
    obtain ⟨h1, _⟩ := idealSetSize_one_bounds
    linarith
  have hassert2 : (1 : ℝ) ≤ ((9 : ℕ) : ℝ) / ((1 : ℕ) : ℝ) * Real.log 2 := by
    obtain ⟨h1, _⟩ := nine_log_two_bounds
    push_cast
    linarith
  refine ⟨optimal_filter_size_one, hk, hassert1, hassert2, ?_, ?_, ?_, ?_, rfl⟩
  · show (List.replicate (optimal_filter_size 1) false).length = 9
    rw [List.length_replicate, optimal_filter_size_one]
  · show optimal_nb_of_hash_functions 1 (optimal_filter_size 1) = 6
    exact hk
  · show (List.replicate (optimal_filter_size 1) (0 : Nat)).length = 9
    rw [List.length_replicate, optimal_filter_size_one]
  · show optimal_nb_of_hash_functions 1 (optimal_filter_size 1) = 6
    exact hk

end ClaimC9

end Cachemere
